import Mathlib

/-!
Verification of the Maestro RAG engine's retrieval components against their
natural-language specification.  The Python source (src/maestro_rag/engine.py
and src/maestro_rag/concept_graph.py) is shallowly embedded: pure functions
become Lean functions over `List Char` / `String` / `ℚ` / `ℝ`, stateful code
becomes explicit state passing, Python dicts become insertion-ordered
association lists, and Python's stable `sorted` becomes a stable insertion
sort (any two stable sorts of the same list under the same key agree).
Float arithmetic is modelled exactly: rational constants stay in `ℚ`, and
values produced by `math.log` / `math.sqrt` live in `ℝ`.
-/

namespace Maestro

/-! ## Python string primitives

The source manipulates Python `str` values with `.strip()`, `.split()`,
`str.lower`, and regular expressions.  These are embedded as functions on
`List Char` (the character data of a Lean `String`), with Python's ASCII
whitespace and word-character classes.
-/

/-- Python `str.strip()` on character data: drop whitespace from both ends. -/
def pyStrip (cs : List Char) : List Char :=
  ((cs.dropWhile Char.isWhitespace).reverse.dropWhile Char.isWhitespace).reverse

/-- Python `\w` (word character), ASCII fragment: letters, digits, underscore. -/
def isWordChar (c : Char) : Bool :=
  c.isAlphanum || c == '_'

/-- Accumulator pass of Python `str.split()` (split on whitespace runs,
dropping empty pieces). `acc` holds the current word reversed. -/
def pyWordsAux (acc : List Char) : List Char → List (List Char)
  | [] => if acc.isEmpty then [] else [acc.reverse]
  | c :: cs =>
    if c.isWhitespace then
      if acc.isEmpty then pyWordsAux [] cs
      else acc.reverse :: pyWordsAux [] cs
    else pyWordsAux (c :: acc) cs

/-- Python `text.split()`: whitespace-separated tokens of a string. -/
def pyWords (s : String) : List String :=
  (pyWordsAux [] s.data).map String.mk

/-- Python `" ".join(words)`. -/
def joinWords (ws : List String) : String :=
  String.intercalate " " ws

/-! ## Chunker (engine.py, class `Chunker`)

`_split_sections` splits a markdown text on the multiline regex
`^(#{1,3} .+)$`.  Since `.` never matches a newline, a match is exactly a
whole line of the form `#`×1..3 ++ `" "` ++ (at least one character), so the
regex split is embedded by splitting the text into lines at `'\n'` and
grouping the lines between heading lines.  The split parts of `re.split`
differ from the joined line groups only by newlines at their ends, which the
source's `.strip()` removes.
-/

namespace Chunker

/-- A line matched by `^(#{1,3} .+)$` with `re.MULTILINE`: one to three `#`,
a space, then at least one character (greedy `.+` runs to the line's end;
four or more `#` cannot backtrack into a match). -/
def isHeadingLine (l : List Char) : Bool :=
  let hashes := l.takeWhile (· == '#')
  decide (1 ≤ hashes.length) && decide (hashes.length ≤ 3) &&
    (match l.drop hashes.length with
     | ' ' :: rest => !rest.isEmpty
     | _ => false)

/-- Group the lines of a file into the text before the first heading and a
list of (heading line, lines until the next heading). -/
def groupSections : List (List Char) → List (List Char) × List (List Char × List (List Char))
  | [] => ([], [])
  | l :: ls =>
    let r := groupSections ls
    if isHeadingLine l then ([], (l, r.1) :: r.2)
    else (l :: r.1, r.2)

/-- Rejoin a group of lines with newlines (inverse of the line split). -/
def joinLines (ls : List (List Char)) : List Char :=
  List.intercalate ['\n'] ls

/-- `Chunker._split_sections` (engine.py lines 255-268): split a markdown
text on level-1..3 headings.  Text before the first heading becomes an
`intro` section if non-blank; each heading opens a section titled by the
heading stripped of leading `#` and whitespace, kept if its body is
non-blank; if nothing was produced the whole text is one `main` section. -/
def split_sections (text : String) : List (String × String) :=
  let g := groupSections (text.data.splitOn '\n')
  let intro : List (String × String) :=
    if (pyStrip (joinLines g.1)).isEmpty then []
    else [("intro", String.mk (pyStrip (joinLines g.1)))]
  let rest : List (String × String) := g.2.filterMap fun hs =>
    let body := pyStrip (joinLines hs.2)
    if body.isEmpty then none
    else some (String.mk (pyStrip (hs.1.dropWhile (· == '#'))), String.mk body)
  match intro ++ rest with
  | [] => [("main", text)]
  | l => l

/-- Loop body of `Chunker._split_long` (engine.py lines 274-281): append
words to `current`; once `current` reaches `maxTokens` words emit it and keep
its last 50 words as overlap; emit any non-empty remainder at the end. -/
def splitLongAux (maxTokens : ℕ) (current : List String) : List String → List (List String)
  | [] => if current.isEmpty then [] else [current]
  | w :: ws =>
    let cur := current ++ [w]
    if maxTokens ≤ cur.length then
      cur :: splitLongAux maxTokens (cur.drop (cur.length - 50)) ws
    else
      splitLongAux maxTokens cur ws

/-- `Chunker._split_long` (engine.py lines 270-282): texts of at most
`maxTokens` whitespace-separated words are kept whole (dropped when blank);
longer texts are cut into windows of `maxTokens` words with a 50-word
overlap between consecutive windows. -/
def split_long (maxTokens : ℕ) (text : String) : List String :=
  let words := pyWords text
  if words.length ≤ maxTokens then
    if (pyStrip text.data).isEmpty then [] else [text]
  else
    (splitLongAux maxTokens [] words).map joinWords

end Chunker

/-- A concrete section body of 53 whitespace-separated words, used to
instantiate boundary theorems about the window splitter. -/
def sample53 : String :=
  "w w w w w w w w w w w w w w w w w w w w w w w w w w w w w w w w w w w w w w w w w w w w w w w w w w w w w"

/-! ## MD5 (the digest `hashlib.md5(raw_id.encode()).hexdigest()` computes)

The source derives chunk ids with Python's `hashlib.md5` over the UTF-8
encoding of the raw id string.  MD5 (RFC 1321) is implemented here over
`ℕ` with explicit reduction modulo `2^32`; bytes are `ℕ` below 256.
-/

/-- UTF-8 encoding of one character (`str.encode()` on one code point). -/
def utf8Bytes (c : Char) : List ℕ :=
  let n := c.toNat
  if n < 128 then [n]
  else if n < 2048 then [192 + n / 64, 128 + n % 64]
  else if n < 65536 then [224 + n / 4096, 128 + n / 64 % 64, 128 + n % 64]
  else [240 + n / 262144, 128 + n / 4096 % 64, 128 + n / 64 % 64, 128 + n % 64]

/-- UTF-8 bytes of a string (`s.encode()`). -/
def strBytes (s : String) : List ℕ :=
  (s.data.map utf8Bytes).flatten

/-- Split a byte list into groups of `n` (for 64-byte blocks and 4-byte
words); a trailing shorter group is kept. -/
def groupBytes (n : ℕ) (bs : List ℕ) : List (List ℕ) :=
  let p := bs.foldl
    (fun acc b =>
      let cur := acc.2 ++ [b]
      if n ≤ cur.length then (acc.1 ++ [cur], ([] : List ℕ)) else (acc.1, cur))
    (([], []) : List (List ℕ) × List ℕ)
  p.1 ++ (if p.2.isEmpty then [] else [p.2])

/-- Little-endian bytes of a 32-bit word. -/
def le4 (n : ℕ) : List ℕ :=
  (List.range 4).map (fun i => n / 256 ^ i % 256)

/-- Little-endian bytes of a 64-bit length field. -/
def le8 (n : ℕ) : List ℕ :=
  (List.range 8).map (fun i => n / 256 ^ i % 256)

/-- MD5 padding: append `0x80`, zero-fill to 56 mod 64, then the original
bit length modulo `2^64`, little-endian. -/
def md5pad (bs : List ℕ) : List ℕ :=
  let k := (56 + 64 - (bs.length + 1) % 64) % 64
  bs ++ [128] ++ List.replicate k 0 ++ le8 (8 * bs.length % 18446744073709551616)

/-- The 64 MD5 sine-derived round constants. -/
def md5K : List ℕ :=
  [0xd76aa478, 0xe8c7b756, 0x242070db, 0xc1bdceee,
   0xf57c0faf, 0x4787c62a, 0xa8304613, 0xfd469501,
   0x698098d8, 0x8b44f7af, 0xffff5bb1, 0x895cd7be,
   0x6b901122, 0xfd987193, 0xa679438e, 0x49b40821,
   0xf61e2562, 0xc040b340, 0x265e5a51, 0xe9b6c7aa,
   0xd62f105d, 0x02441453, 0xd8a1e681, 0xe7d3fbc8,
   0x21e1cde6, 0xc33707d6, 0xf4d50d87, 0x455a14ed,
   0xa9e3e905, 0xfcefa3f8, 0x676f02d9, 0x8d2a4c8a,
   0xfffa3942, 0x8771f681, 0x6d9d6122, 0xfde5380c,
   0xa4beea44, 0x4bdecfa9, 0xf6bb4b60, 0xbebfbc70,
   0x289b7ec6, 0xeaa127fa, 0xd4ef3085, 0x04881d05,
   0xd9d4d039, 0xe6db99e5, 0x1fa27cf8, 0xc4ac5665,
   0xf4292244, 0x432aff97, 0xab9423a7, 0xfc93a039,
   0x655b59c3, 0x8f0ccc92, 0xffeff47d, 0x85845dd1,
   0x6fa87e4f, 0xfe2ce6e0, 0xa3014314, 0x4e0811a1,
   0xf7537e82, 0xbd3af235, 0x2ad7d2bb, 0xeb86d391]

/-- The MD5 per-round left-rotation amounts. -/
def md5S : List ℕ :=
  [7, 12, 17, 22, 7, 12, 17, 22, 7, 12, 17, 22, 7, 12, 17, 22,
   5, 9, 14, 20, 5, 9, 14, 20, 5, 9, 14, 20, 5, 9, 14, 20,
   4, 11, 16, 23, 4, 11, 16, 23, 4, 11, 16, 23, 4, 11, 16, 23,
   6, 10, 15, 21, 6, 10, 15, 21, 6, 10, 15, 21, 6, 10, 15, 21]

/-- Left rotation of a 32-bit word. -/
def rotl32 (x s : ℕ) : ℕ :=
  ((x <<< s) ||| (x >>> (32 - s))) % 4294967296

/-- The MD5 nonlinear function of round `i` (bitwise complement is xor
with `2^32 - 1`). -/
def md5F (i b c d : ℕ) : ℕ :=
  if i < 16 then (b &&& c) ||| ((b ^^^ 4294967295) &&& d)
  else if i < 32 then (d &&& b) ||| ((d ^^^ 4294967295) &&& c)
  else if i < 48 then b ^^^ c ^^^ d
  else c ^^^ (b ||| (d ^^^ 4294967295))

/-- The MD5 message-word index of round `i`. -/
def md5g (i : ℕ) : ℕ :=
  if i < 16 then i
  else if i < 32 then (5 * i + 1) % 16
  else if i < 48 then (3 * i + 5) % 16
  else 7 * i % 16

/-- One MD5 round on the state `(a, b, c, d)` with message words `m`. -/
def md5round (m : List ℕ) (st : ℕ × ℕ × ℕ × ℕ) (i : ℕ) : ℕ × ℕ × ℕ × ℕ :=
  let f := (md5F i st.2.1 st.2.2.1 st.2.2.2 + st.1 + md5K.getD i 0
    + m.getD (md5g i) 0) % 4294967296
  (st.2.2.2, (st.2.1 + rotl32 f (md5S.getD i 0)) % 4294967296, st.2.1, st.2.2.1)

/-- Process one 64-byte block into the running MD5 state. -/
def md5block (st : ℕ × ℕ × ℕ × ℕ) (block : List ℕ) : ℕ × ℕ × ℕ × ℕ :=
  let m := (groupBytes 4 block).map
    (fun g => g.getD 0 0 + 256 * g.getD 1 0 + 65536 * g.getD 2 0 + 16777216 * g.getD 3 0)
  let r := (List.range 64).foldl (md5round m) st
  ((st.1 + r.1) % 4294967296, (st.2.1 + r.2.1) % 4294967296,
   (st.2.2.1 + r.2.2.1) % 4294967296, (st.2.2.2 + r.2.2.2) % 4294967296)

/-- A nibble as a lowercase hexadecimal character. -/
def hexDigit (n : ℕ) : Char :=
  if n < 10 then Char.ofNat (48 + n) else Char.ofNat (87 + n)

/-- A byte as two lowercase hexadecimal characters. -/
def byteHex (b : ℕ) : List Char :=
  [hexDigit (b / 16), hexDigit (b % 16)]

/-- `hashlib.md5(bs).hexdigest()`: the 32-character lowercase hex digest. -/
def md5hexBytes (bs : List ℕ) : String :=
  let fin := (groupBytes 64 (md5pad bs)).foldl md5block
    (1732584193, 4023233417, 2562383102, 271733878)
  String.mk (((le4 fin.1 ++ le4 fin.2.1 ++ le4 fin.2.2.1 ++ le4 fin.2.2.2).map byteHex).flatten)

/-- `hashlib.md5(s.encode()).hexdigest()` for a string `s`. -/
def md5_hexdigest (s : String) : String :=
  md5hexBytes (strBytes s)

/-! ## Chunk data type and `Chunker.chunk_file` -/

/-- The `Chunk` dataclass (engine.py lines 76-86).  `sect` stands for the
source's `section` field (a keyword in Lean). -/
structure Chunk where
  id : String
  text : String
  contextual_text : String
  skill : String
  file : String
  file_path : String
  sect : String
  domains : List String
deriving DecidableEq, Inhabited

namespace Chunker

/-- Remove every occurrence of the 12-character pattern `description:`
(Python `line.replace("description:", "")`); `fuel` bounds recursion by the
input length. -/
def removeDescr (fuel : ℕ) (cs : List Char) : List Char :=
  match fuel, cs with
  | 0, rest => rest
  | _, [] => []
  | f + 1, c :: cs =>
    if (c :: cs).take 12 = ("description:" : String).data then
      removeDescr f (cs.drop 11)
    else
      c :: removeDescr f cs

/-- Python `.strip("'\"")`: drop single- and double-quote characters (code
points 39 and 34) from both ends. -/
def stripQuoteChars (cs : List Char) : List Char :=
  let q := fun c => c == Char.ofNat 39 || c == Char.ofNat 34
  ((cs.dropWhile q).reverse.dropWhile q).reverse

/-- `Chunker._extract_context` (engine.py lines 284-289): among the first
eight lines, the first one starting with `description:` gives the context
(with the marker removed and quotes stripped); otherwise `"skill — file"`.
(Python `splitlines` is modelled as splitting on newline characters.) -/
def extract_context (text : String) (filename skill : String) : String :=
  let firstLines := (text.data.splitOn '\n').take 8
  match firstLines.find? (fun l => l.take 12 = ("description:" : String).data) with
  | some l => String.mk (stripQuoteChars (pyStrip (removeDescr l.length l)))
  | none => skill ++ " — " ++ filename

/-- `Chunker.chunk_file` (engine.py lines 230-253).  The file system read is
factored out: `fileText` is the text `path.read_text` returns, `fileName`
is `path.name` and `filePath` is `str(path)`. -/
def chunk_file (maxTokens : ℕ) (fileText fileName filePath skill_name : String)
    (domains : List String) : List Chunk :=
  let sections := split_sections fileText
  let file_context := extract_context fileText fileName skill_name
  sections.flatMap fun st =>
    (split_long maxTokens st.2).map fun sub =>
      let raw_id := skill_name ++ "/" ++ fileName ++ "/" ++ st.1 ++ "/"
        ++ String.mk (sub.data.take 50)
      { id := md5_hexdigest raw_id
        text := sub
        contextual_text := "[" ++ skill_name ++ " | " ++ fileName ++ "]\n"
          ++ file_context ++ "\n\n" ++ sub
        skill := skill_name
        file := fileName
        file_path := filePath
        sect := st.1
        domains := domains }

end Chunker

/-- A markdown file with two identical `# A` headings whose section bodies
agree on their first 50 characters (50 `x`s) and differ afterwards. -/
def collideText : String :=
  "# A\nxxxxxxxxxxxxxxxxxxxxxxxxxxxxxxxxxxxxxxxxxxxxxxxxxxb\n# A\nxxxxxxxxxxxxxxxxxxxxxxxxxxxxxxxxxxxxxxxxxxxxxxxxxxc"

/-! ## Python dict as an insertion-ordered association list

Python dicts preserve insertion order; assigning to an existing key updates
its value in place.  `dictUpdate l key f` models `d[key] = f(d.get(key))`:
an existing binding keeps its position with the new value, a fresh key is
appended.  `defaultdict` reads and `dict.get` defaults are expressed through
the `Option` passed to `f`.
-/

def dictUpdate {α : Type} (l : List (String × α)) (key : String) (f : Option α → α) :
    List (String × α) :=
  if l.any (fun p => p.1 == key) then
    l.map (fun p => if p.1 == key then (p.1, f (some p.2)) else p)
  else l ++ [(key, f none)]

/-- Insertion-ordered first-match lookup (Python `d[key]` / `d.get(key)`). -/
def dictFind {α : Type} (l : List (String × α)) (key : String) : Option α :=
  (l.find? (fun p => p.1 == key)).map Prod.snd

/-! ## BM25 (engine.py, class `BM25`)

`fit` tokenises and stores the documents and ids; the source also caches the
document frequencies `_df`, the average document length `_avgdl` and `_N` at
fit time — these caches are functions of the stored documents and are
embedded as the derived accessors `dfOf`, `avgdlOf` and `docs.length`, which
compute exactly the values `fit` stores. -/

structure BM25 where
  k1 : ℚ
  b : ℚ
  docs : List (List String)
  ids : List String

namespace BM25

/-- `BM25.__init__(k1=1.5, b=0.75)` with no documents fitted. -/
def init : BM25 :=
  { k1 := 3 / 2, b := 3 / 4, docs := [], ids := [] }

/-- Run accumulator for `re.findall(r"\w+", ...)`: maximal runs of word
characters; `acc` holds the current run reversed. -/
def tokenizeAux (acc : List Char) : List Char → List (List Char)
  | [] => if acc.isEmpty then [] else [acc.reverse]
  | c :: cs =>
    if isWordChar c then tokenizeAux (c :: acc) cs
    else if acc.isEmpty then tokenizeAux [] cs
    else acc.reverse :: tokenizeAux [] cs

/-- `BM25._tokenize` (engine.py lines 187-188): `re.findall(r"\w+",
text.lower())`. -/
def tokenize (s : String) : List String :=
  (tokenizeAux [] (s.data.map Char.toLower)).map String.mk

/-- `BM25.fit` (engine.py lines 190-200): store the tokenised documents and
their ids (frequencies and average length are derived accessors here). -/
def fit (self : BM25) (docs : List String) (ids : List String) : BM25 :=
  { self with docs := docs.map tokenize, ids := ids }

/-- The document frequency `_df[t]` that `fit` computes: the number of
documents whose token set contains `t` (0 for unseen terms, as for a
`defaultdict(int)` read). -/
def dfOf (docs : List (List String)) (t : String) : ℕ :=
  (docs.filter (fun d => d.contains t)).length

/-- The average document length `_avgdl` that `fit` computes
(`total / N if N else 1.0`). -/
def avgdlOf (docs : List (List String)) : ℚ :=
  if docs.length = 0 then 1
  else ((docs.map List.length).sum : ℚ) / (docs.length : ℚ)

/-- The score one document contributes in `BM25.score`'s loop (engine.py
lines 205-218): over the query tokens present in the document, IDF
`log((N − df + 0.5) / (df + 0.5) + 1)` times the saturated term-frequency
factor. -/
noncomputable def docScore (k1 b : ℚ) (n : ℕ) (df : String → ℕ) (avgdl : ℚ)
    (qTokens tokens : List String) : ℝ :=
  (qTokens.map (fun qt =>
    if tokens.contains qt then
      Real.log (((n : ℝ) - (df qt : ℝ) + 1 / 2) / ((df qt : ℝ) + 1 / 2) + 1) *
        ((tokens.count qt : ℝ) * ((k1 : ℝ) + 1)) /
        ((tokens.count qt : ℝ) + (k1 : ℝ) *
          (1 - (b : ℝ) + (b : ℝ) * (tokens.length : ℝ) / (avgdl : ℝ)))
    else 0)).sum

noncomputable instance decRelSndLe : DecidableRel (fun (a b : String × ℝ) => b.2 ≤ a.2) :=
  fun _ _ => Classical.dec _

/-- The `scores` dict `BM25.score` builds (engine.py lines 204-220): for
each fitted document in order, its score against the query tokens is
recorded under its id when strictly positive. -/
noncomputable def scoreEntries (self : BM25) (qTokens : List String) :
    List (String × ℝ) :=
  (self.ids.zip self.docs).foldl
    (fun acc pair =>
      let s := docScore self.k1 self.b self.docs.length (dfOf self.docs)
        (avgdlOf self.docs) qTokens pair.2
      if 0 < s then dictUpdate acc pair.1 (fun _ => s) else acc)
    ([] : List (String × ℝ))

/-- `BM25.score` (engine.py lines 202-221): score every fitted document
against the query tokens, keep strictly positive scores in a dict keyed by
id, and return the top `top_k` pairs sorted by descending score (Python's
stable sort is embedded as a stable insertion sort). -/
noncomputable def score (self : BM25) (query : String) (top_k : ℕ) : List (String × ℝ) :=
  (List.insertionSort (fun a b => b.2 ≤ a.2)
    (scoreEntries self (tokenize query))).take top_k

end BM25

/-! ## ConceptGraph (concept_graph.py)

The dataclass holds `edges: defaultdict(str, list[(str, float)])` and
`aliases: dict[str, str]`; both are embedded as total functions (the
defaultdict read `edges.get(concept, [])` is the function's value, absent
aliases are `none`).  Weights are `ℚ`.  Python `set`s iterate in an
unspecified order, so token and seed sets are embedded as deduplicated
lists; every property proved below is independent of that order. -/

structure ConceptGraph where
  edges : String → List (String × ℚ)
  aliases : String → Option String

instance decRelSndLeQ : DecidableRel (fun (a b : String × ℚ) => b.2 ≤ a.2) :=
  fun a b => inferInstanceAs (Decidable (b.2 ≤ a.2))

namespace ConceptGraph

/-- Run accumulator for `re.findall(r"[@#]?\w+", ...)`: maximal word-char
runs, each taking a single directly preceding `@`/`#` sigil (`pending`). -/
def cgTokensAux (pending : Option Char) (acc : List Char) : List Char → List (List Char)
  | [] => if acc.isEmpty then [] else [acc.reverse]
  | c :: cs =>
    if isWordChar c then
      if acc.isEmpty then
        match pending with
        | some p => cgTokensAux none [c, p] cs
        | none => cgTokensAux none [c] cs
      else cgTokensAux none (c :: acc) cs
    else
      let rest := cgTokensAux (if c == '@' || c == '#' then some c else none) [] cs
      if acc.isEmpty then rest else acc.reverse :: rest

/-- The token set of the lowercased query (concept_graph.py lines 48-49),
as a deduplicated list. -/
def tokensOfQuery (query : String) : List String :=
  ((cgTokensAux none [] (query.data.map Char.toLower)).map String.mk).dedup

/-- The alias-resolved seed set (concept_graph.py lines 51-54). -/
def resolvedSeeds (g : ConceptGraph) (query : String) : List String :=
  ((tokensOfQuery query).map (fun t => (g.aliases t).getD t)).dedup

/-- `ConceptGraph._collect_neighbors` (concept_graph.py lines 66-84) with
the mutated `(visited, candidates)` pair threaded explicitly: record each
qualifying neighbour at the maximum weight seen (`max(current, weight)`
against a 0.0 default), recursing at depth > 1 with the threshold scaled
by 0.7. -/
def collectNeighbors (g : ConceptGraph) : (depth : ℕ) → (minw : ℚ) → (concept : String) →
    List String × List (String × ℚ) → List String × List (String × ℚ)
  | 0, _, _, st => st
  | d + 1, minw, concept, st =>
    if concept ∈ st.1 then st
    else
      (g.edges concept).foldl
        (fun st2 nw =>
          if minw ≤ nw.2 then
            let st3 := (st2.1, dictUpdate st2.2 nw.1 (fun o => max (o.getD 0) nw.2))
            if 0 < d then collectNeighbors g d (minw * (7 / 10)) nw.1 st3 else st3
          else st2)
        (concept :: st.1, st.2)

/-- The candidate dict built by `expand`'s seed loop (concept_graph.py
lines 56-58): each seed's neighbours are collected with a fresh `visited`
set, the dict accumulating across seeds. -/
def candDict (g : ConceptGraph) (query : String) (minw : ℚ) (depth : ℕ) :
    List (String × ℚ) :=
  (resolvedSeeds g query).foldl
    (fun cand t => (collectNeighbors g depth minw t ([], cand)).2) []

/-- `ConceptGraph.expand` (concept_graph.py lines 41-64) with explicit
arguments: walk each seed's neighbours into the candidate dict, drop
candidates that are query tokens or resolved seeds, and return the names of
the top `maxExp` entries by descending weight. -/
def expandWith (g : ConceptGraph) (query : String) (maxExp : ℕ) (minw : ℚ)
    (depth : ℕ) : List String :=
  let cand2 := (candDict g query minw depth).filter
    (fun p => !((resolvedSeeds g query).contains p.1
      || (tokensOfQuery query).contains p.1))
  ((List.insertionSort (fun a b => b.2 ≤ a.2) cand2).take maxExp).map Prod.fst

/-- `expand` at its default arguments (`max_expansions=6`, `min_weight=0.5`,
`depth=1`), as the engine calls it. -/
def expand (g : ConceptGraph) (query : String) : List String :=
  expandWith g query 6 (1 / 2) 1

/-- The weight the candidate dict records for `t` after a depth-1 expansion
from `seeds`: the running maximum, from the 0.0 default, of the qualifying
(≥ `minw`) edge weights by which some seed reaches `t`. -/
def bestSeedWeight (g : ConceptGraph) (seeds : List String) (minw : ℚ) (t : String) : ℚ :=
  ((seeds.flatMap g.edges).filter (fun p => p.1 == t && decide (minw ≤ p.2))).foldl
    (fun m p => max m p.2) 0

end ConceptGraph

/-- A one-edge concept graph with no aliases, for concrete instantiation. -/
def sampleGraph : ConceptGraph :=
  { edges := fun c => if c == "a" then [("b", 1)] else []
    aliases := fun _ => none }

/-! ## Reciprocal Rank Fusion (`MaestroEngine._rrf_fuse`, engine.py 585-642)

The vector store fetch `collection.get(ids=all_ids)` is embedded as a
function `store : String → Option (String × ChunkMeta)` from chunk id to
the stored `(document, metadata)`; ids the store does not hold return
`none` (exactly the ids `id_to_data` lacks in the source).  The `domains`
metadata field round-trips through `json.dumps`/`json.loads` in the source
and is held here as the list itself. -/

/-- The metadata `_store_chunks` persists for a chunk (engine.py 524-530). -/
structure ChunkMeta where
  skill : String
  file : String
  file_path : String
  sect : String
  domains : List String
deriving DecidableEq, Inhabited

/-- The `SearchResult` dataclass (engine.py lines 101-107). -/
structure SearchResult where
  chunk : Chunk
  final_score : ℚ
  semantic_rank : Option ℕ
  bm25_rank : Option ℕ
  rerank_score : Option ℚ
deriving DecidableEq, Inhabited

/-- The `rrf` dict after the semantic pass (engine.py 594-596): each
semantic candidate adds `1 / (k + rank + 1)` under its id. -/
def rrfSemDict (k : ℚ) (sem : List (String × ℚ × ℕ)) : List (String × ℚ) :=
  sem.enum.foldl
    (fun acc pr => dictUpdate acc pr.2.1 (fun o => o.getD 0 + 1 / (k + (pr.1 : ℚ) + 1))) []

/-- The `rrf` dict after both passes (engine.py 598-601): the
descending-sorted lexical candidates add `1 / (k + rank + 1)` on top. -/
def rrfDict (k : ℚ) (sem : List (String × ℚ × ℕ)) (bsorted : List (String × ℚ)) :
    List (String × ℚ) :=
  bsorted.enum.foldl
    (fun acc pr => dictUpdate acc pr.2.1 (fun o => o.getD 0 + 1 / (k + (pr.1 : ℚ) + 1)))
    (rrfSemDict k sem)

/-- `sem_map` (engine.py 592-596): id to `(semantic score, semantic rank)`. -/
def semMapDict (sem : List (String × ℚ × ℕ)) : List (String × (ℚ × Option ℕ)) :=
  sem.enum.foldl (fun acc pr => dictUpdate acc pr.2.1 (fun _ => (pr.2.2.1, some pr.1))) []

/-- `bm25_rank_map` (engine.py 599): id to rank in the sorted lexical list. -/
def bm25RankDict (bsorted : List (String × ℚ)) : List (String × ℕ) :=
  bsorted.enum.foldl (fun acc pr => dictUpdate acc pr.2.1 (fun _ => pr.1)) []

/-- The body of `_rrf_fuse`'s result loop (engine.py lines 621-641): a
fused `(id, rrf_score)` entry becomes a `SearchResult` from the store's
payload, or is skipped when the store does not hold the id. -/
def fuseItem (store : String → Option (String × ChunkMeta))
    (sem : List (String × ℚ × ℕ)) (bsorted : List (String × ℚ))
    (pr : String × ℚ) : Option SearchResult :=
  match store pr.1 with
  | none => none
  | some dm =>
    let si := (dictFind (semMapDict sem) pr.1).getD (0, none)
    some { chunk := { id := pr.1, text := dm.1, contextual_text := dm.1,
                      skill := dm.2.skill, file := dm.2.file,
                      file_path := dm.2.file_path, sect := dm.2.sect,
                      domains := dm.2.domains }
           final_score := pr.2
           semantic_rank := si.2
           bm25_rank := dictFind (bm25RankDict bsorted) pr.1
           rerank_score := none }

/-- `MaestroEngine._rrf_fuse` (engine.py lines 585-642): accumulate RRF
scores from both candidate lists, fetch each fused id's payload from the
store in descending-score order, skip missing ids, and build
`SearchResult`s whose `final_score` is the RRF score. -/
def rrfFuse (store : String → Option (String × ChunkMeta))
    (sem : List (String × ℚ × ℕ)) (bm25 : List (String × ℚ)) (k : ℚ) :
    List SearchResult :=
  let bsorted := List.insertionSort (fun a b => b.2 ≤ a.2) bm25
  let rrf := rrfDict k sem bsorted
  if rrf.isEmpty then []
  else
    (List.insertionSort (fun a b => b.2 ≤ a.2) rrf).filterMap
      (fuseItem store sem bsorted)

/-- The claimed fused contribution of one candidate list: the sum of
`1 / (k + rank + 1)` over the zero-based positions `rank` at which the
list holds the id `i`. -/
def rrfContrib {β : Type} (k : ℚ) (l : List β) (keyf : β → String) (i : String) : ℚ :=
  ((l.enum.filter (fun pr => keyf pr.2 == i)).map
    (fun pr => 1 / (k + (pr.1 : ℚ) + 1))).sum

/-! ## Cosine similarity and skill fingerprint matching
(`MaestroEngine._cosine`, `_match_skills`; engine.py 548-563, 681-685) -/

/-- The `SkillFingerprint` dataclass (engine.py lines 88-98). -/
structure SkillFingerprint where
  name : String
  description : String
  domains : List String
  chunk_count : ℕ
  embedding : Option (List ℚ)
deriving DecidableEq, Inhabited

namespace MaestroEngine

/-- `MaestroEngine._cosine` (engine.py lines 681-685): the cosine of two
embedding vectors, 0.0 when either norm vanishes (Python's
`if na and nb`). -/
noncomputable def cosine (a b : List ℚ) : ℝ :=
  let dot := ((a.zip b).map (fun p : ℚ × ℚ => (p.1 : ℝ) * (p.2 : ℝ))).sum
  let na := Real.sqrt ((a.map (fun x : ℚ => (x : ℝ) * (x : ℝ))).sum)
  let nb := Real.sqrt ((b.map (fun x : ℚ => (x : ℝ) * (x : ℝ))).sum)
  if na = 0 ∨ nb = 0 then 0 else dot / (na * nb)

/-- The `(name, similarity)` list `_match_skills` builds (engine.py
552-556): fingerprints whose embedding is truthy (not `None`, not empty)
scored against the query embedding. -/
noncomputable def simScores (fingerprints : List (String × SkillFingerprint))
    (q : List ℚ) : List (String × ℝ) :=
  fingerprints.filterMap (fun nf =>
    match nf.2.embedding with
    | none => none
    | some e => if e.isEmpty then none else some (nf.1, cosine q e))

/-- The top similarity after the descending sort (`scores[0][1]`,
engine.py 561). -/
noncomputable def topSim (fingerprints : List (String × SkillFingerprint))
    (q : List ℚ) : ℝ :=
  (List.insertionSort (fun a b => b.2 ≤ a.2) (simScores fingerprints q)).headI.2

noncomputable instance decRealLe (x y : ℝ) : Decidable (x ≤ y) := Classical.dec _

/-- `MaestroEngine._match_skills` (engine.py lines 548-563): keep the
skills scoring at least `0.6 × top score`, in descending-score order,
capped at 8. -/
noncomputable def matchSkills (fingerprints : List (String × SkillFingerprint))
    (q : List ℚ) : List String :=
  if fingerprints.isEmpty then []
  else
    let scores := simScores fingerprints q
    if scores.isEmpty then []
    else
      let sorted := List.insertionSort (fun a b => b.2 ≤ a.2) scores
      let threshold := sorted.headI.2 * (0.6 : ℝ)
      ((sorted.filter (fun p => decide (threshold ≤ p.2))).map Prod.fst).take 8

end MaestroEngine

/-- A one-entry fingerprint registry with a non-empty embedding, for
concrete instantiation. -/
def sampleFps : List (String × SkillFingerprint) :=
  [("a", { name := "a", description := "", domains := [], chunk_count := 0,
           embedding := some [1] })]

/-! ## The query cache (`MaestroEngine.search` / `_check_cache`;
engine.py 387-436, 659-679)

The cache-relevant skeleton of `search` is embedded with the cache dict as
explicit state.  The non-cache stages S2-S7 (expansion, embedding, hybrid
retrieval, reranking, truncation) are abstracted into a `pipe` parameter
supplying the fields of the freshly built response, and the query embedder
into `embedQ`; `search` itself constructs the `SearchResponse` with
`from_cache` left at its `False` default (engine.py 425-431).  Python's
object aliasing — `cached.from_cache = True` mutates the object the cache
dict still holds — is captured by updating the cache entry under the hit
key to the returned response. -/

/-- The `SearchResponse` dataclass (engine.py lines 110-117). -/
structure SearchResponse where
  query : String
  results : List SearchResult
  skills_used : List String
  time_ms : ℚ
  from_cache : Bool
  expanded_terms : Option (List String)
deriving DecidableEq, Inhabited

/-- What stages S2-S7 of `search` produce for a fresh query: the fields of
the response built at engine.py lines 425-431 other than `query` and
`from_cache`. -/
structure PipeOut where
  results : List SearchResult
  skills_used : List String
  time_ms : ℚ
  expanded_terms : Option (List String)
deriving DecidableEq, Inhabited

namespace MaestroEngine

/-- `MaestroEngine._check_cache` (engine.py lines 659-679): exact match
first; otherwise the cosine argmax (strict improvement over 0.0) of the
cached queries' embeddings, accepted at `cache_similarity`.  The returned
pair carries the cache key of the hit entry, standing for the identity of
the aliased response object. -/
noncomputable def checkCache (embedQ : String → List ℚ) (cacheSimilarity : ℚ)
    (cache : List (String × SearchResponse)) (query : String) :
    Option (String × SearchResponse) :=
  match dictFind cache query with
  | some r => some (query, r)
  | none =>
    if cache.isEmpty then none
    else
      let qEmb := embedQ query
      let best := cache.foldl
        (fun acc entry =>
          let sim := cosine qEmb (embedQ entry.1)
          if acc.2 < sim then ((some entry : Option (String × SearchResponse)), sim)
          else acc)
        ((none : Option (String × SearchResponse)), (0 : ℝ))
      match best.1 with
      | some entry =>
        if (cacheSimilarity : ℝ) ≤ best.2 then some (entry.1, entry.2) else none
      | none => none

/-- The cache skeleton of `MaestroEngine.search` (engine.py lines 387-436):
a cache hit sets `from_cache` on the cached response and returns it (the
stored entry, being the same object, now carries `from_cache = True`); a
miss builds a fresh response with `from_cache = False` and stores it under
the literal query.  Returns `(response, new cache)`. -/
noncomputable def search (pipe : String → PipeOut) (embedQ : String → List ℚ)
    (cacheEnabled : Bool) (cacheSimilarity : ℚ)
    (st : List (String × SearchResponse)) (query : String) :
    SearchResponse × List (String × SearchResponse) :=
  match (if cacheEnabled then checkCache embedQ cacheSimilarity st query else none) with
  | some entry =>
    let resp := { entry.2 with from_cache := true }
    (resp, dictUpdate st entry.1 (fun _ => resp))
  | none =>
    let out := pipe query
    let response : SearchResponse :=
      { query := query, results := out.results, skills_used := out.skills_used,
        time_ms := out.time_ms, from_cache := false,
        expanded_terms := out.expanded_terms }
    if cacheEnabled then (response, dictUpdate st query (fun _ => response))
    else (response, st)

end MaestroEngine

/-- A trivial retrieval pipeline for concrete cache runs. -/
def pipe0 : String → PipeOut :=
  fun _ => { results := [], skills_used := [], time_ms := 0, expanded_terms := none }

/-- A trivial query embedder for concrete cache runs. -/
def embedQ0 : String → List ℚ :=
  fun _ => []

/-- The cache after one `search "a"` from an empty cache. -/
noncomputable def cacheSt1 : List (String × SearchResponse) :=
  (MaestroEngine.search pipe0 embedQ0 true (92 / 100) [] "a").2

/-- The cache after a second `search "a"` (an exact cache hit). -/
noncomputable def cacheSt2 : List (String × SearchResponse) :=
  (MaestroEngine.search pipe0 embedQ0 true (92 / 100) cacheSt1 "a").2

/-! ## Indexing bookkeeping (`MaestroEngine.index` / `_store_chunks`;
engine.py 328-385, 504-531)

The file system walk and the chunker are factored out: a `SkillInput`
carries what `index` derives per skill directory (name, description,
domains, produced chunks).  The vector store holds chunk ids; per the
spec's external VectorStore contract the batched write is an upsert, and
`force` clears all prior entries (the source deletes every entry carrying
skill metadata, which is every entry it wrote).  `_embed_fingerprints`
writes only the `embedding` field and is omitted (external embedding
provider); no quantity below reads it. -/

/-- Per-skill input to `index`: the data the skill loop (engine.py
341-365) computes from one skill directory. -/
structure SkillInput where
  name : String
  description : String
  domains : List String
  chunks : List Chunk
deriving DecidableEq, Inhabited

/-- The engine state `index` updates: vector store ids and the fingerprint
registry. -/
structure EngineIndexState where
  store : List String
  fingerprints : List (String × SkillFingerprint)
deriving DecidableEq, Inhabited

namespace MaestroEngine

/-- One batched store write (`_store_chunks` / VectorStore `upsert`): a
fresh id is appended, an existing id keeps its entry. -/
def upsertId (store : List String) (i : String) : List String :=
  if store.contains i then store else store ++ [i]

/-- The `SkillFingerprint` built for a skill at engine.py lines 358-363. -/
def mkFp (s : SkillInput) : SkillFingerprint :=
  { name := s.name, description := s.description, domains := s.domains,
    chunk_count := s.chunks.length, embedding := none }

/-- One iteration of the skill loop's fingerprint bookkeeping (engine.py
lines 356-365): skills with no chunks are skipped, the rest upsert their
fingerprint under the skill name. -/
def fpStep (fps : List (String × SkillFingerprint)) (s : SkillInput) :
    List (String × SkillFingerprint) :=
  if s.chunks.isEmpty then fps
  else dictUpdate fps s.name (fun _ => mkFp s)

/-- `MaestroEngine.index` (engine.py lines 328-385) over prepared skill
inputs: register a fingerprint (with `chunk_count`) for every skill that
produced chunks; when nothing was chunked return unchanged; otherwise
clear the store if `force` and upsert every chunk id. -/
def index (st : EngineIndexState) (corpus : List SkillInput) (force : Bool) :
    EngineIndexState :=
  let fps := corpus.foldl fpStep st.fingerprints
  let all_chunks := corpus.flatMap (fun s => s.chunks)
  if all_chunks.isEmpty then { st with fingerprints := fps }
  else
    let store1 := if force then [] else st.store
    { store := all_chunks.foldl (fun sto c => upsertId sto c.id) store1
      fingerprints := fps }

end MaestroEngine

/-- A one-chunk corpus for skill `A` (chunk id `c1`). -/
def corpusA1 : List SkillInput :=
  [{ name := "A", description := "", domains := [],
     chunks := [{ id := "c1", text := "t1", contextual_text := "t1", skill := "A",
                  file := "f.md", file_path := "p/f.md", sect := "s", domains := [] }] }]

/-- The same skill re-indexed after its content changed (chunk id `c2`). -/
def corpusA2 : List SkillInput :=
  [{ name := "A", description := "", domains := [],
     chunks := [{ id := "c2", text := "t2", contextual_text := "t2", skill := "A",
                  file := "f.md", file_path := "p/f.md", sect := "s", domains := [] }] }]

end Maestro

namespace Maestro

/-! ## Helper lemmas about the string primitives -/

theorem pyStrip_eq_nil_iff (cs : List Char) :
    pyStrip cs = [] ↔ ∀ c ∈ cs, c.isWhitespace := by
  unfold pyStrip
  rw [List.reverse_eq_nil_iff, List.dropWhile_eq_nil_iff]
  constructor
  · intro h c hc
    rcases List.mem_append.mp ((List.takeWhile_append_dropWhile
        (p := Char.isWhitespace) (l := cs)) ▸ hc) with h1 | h2
    · exact List.mem_takeWhile_imp h1
    · exact h c (List.mem_reverse.mpr h2)
  · intro h c hc
    exact h c (List.dropWhile_sublist _ |>.mem (List.mem_reverse.mp hc))

theorem groupSections_no_heading (ls : List (List Char))
    (h : ∀ l ∈ ls, Chunker.isHeadingLine l = false) :
    Chunker.groupSections ls = (ls, []) := by
  induction ls with
  | nil => rfl
  | cons l ls ih =>
    have hl : Chunker.isHeadingLine l = false := h l (List.mem_cons_self l ls)
    have ihs := ih (fun x hx => h x (List.mem_cons_of_mem l hx))
    simp [Chunker.groupSections, hl, ihs]

theorem joinLines_splitOn (cs : List Char) :
    Chunker.joinLines (cs.splitOn '\n') = cs :=
  List.intercalate_splitOn cs '\n'

theorem pyStrip_ne_nil (cs : List Char) (h : ∃ c ∈ cs, c.isWhitespace = false) :
    pyStrip cs ≠ [] := by
  intro hnil
  obtain ⟨c, hc, hw⟩ := h
  have := (pyStrip_eq_nil_iff cs).mp hnil c hc
  simp [this] at hw

theorem pyStrip_isEmpty_false (cs : List Char) (h : ∃ c ∈ cs, c.isWhitespace = false) :
    (pyStrip cs).isEmpty = false := by
  have hne := pyStrip_ne_nil cs h
  cases hps : pyStrip cs with
  | nil => exact absurd hps hne
  | cons a l => rfl

/-- `C1` — The Chunker's section splitter on a non-blank text with no
level-1..3 heading line returns exactly one section; its title is `intro`
(not `main`) and its body is the text stripped of surrounding whitespace. -/
theorem split_sections_no_heading (text : String)
    (h1 : ∃ c ∈ text.data, c.isWhitespace = false)
    (h2 : ∀ l ∈ text.data.splitOn '\n', Chunker.isHeadingLine l = false) :
    Chunker.split_sections text = [("intro", String.mk (pyStrip text.data))] := by
  have hg := groupSections_no_heading _ h2
  have hne : (pyStrip text.data).isEmpty = false := pyStrip_isEmpty_false _ h1
  simp [Chunker.split_sections, hg, joinLines_splitOn, hne]

/-- Witness for `C1`'s theorem at the concrete text `"  hello world  "`. -/
theorem split_sections_no_heading_witness :
    Chunker.split_sections "  hello world  " =
      [("intro", String.mk (pyStrip ("  hello world  " : String).data))] :=
  split_sections_no_heading "  hello world  " (by decide) (by decide)

/-- Counterexample to `C1` as stated: on the heading-free text `"hello"` the
splitter returns one section titled `intro`, not `main`. -/
theorem split_sections_claim_counterexample :
    Chunker.split_sections "hello" = [("intro", "hello")] ∧
      (("intro", "hello") : String × String) ≠ ("main", "hello") := by
  constructor
  · rfl
  · decide

/-! ## Lemmas for the window splitter (`C5`) -/

theorem splitLongAux_small (maxTokens : ℕ) :
    ∀ (ws current : List String), current.length + ws.length < maxTokens →
      Chunker.splitLongAux maxTokens current ws =
        if (current ++ ws).isEmpty then [] else [current ++ ws] := by
  intro ws
  induction ws with
  | nil => intro c _; simp [Chunker.splitLongAux]
  | cons w ws ih =>
    intro c hlt
    simp only [List.length_cons] at hlt
    have hcur : ¬ maxTokens ≤ (c ++ [w]).length := by
      simp only [List.length_append, List.length_cons, List.length_nil]
      omega
    have ihs := ih (c ++ [w])
      (by simp only [List.length_append, List.length_cons, List.length_nil]; omega)
    rw [Chunker.splitLongAux, if_neg hcur, ihs]
    simp

theorem splitLongAux_exact_overflow (maxTokens : ℕ) (h52 : 52 ≤ maxTokens) :
    ∀ (ws c : List String), c.length < maxTokens →
      c.length + ws.length = maxTokens + 1 →
      Chunker.splitLongAux maxTokens c ws =
        [c ++ ws.take (maxTokens - c.length), (c ++ ws).drop (maxTokens - 50)] := by
  intro ws
  induction ws with
  | nil => intro c hlt hlen; simp at hlen; omega
  | cons w ws ih =>
    intro c hlt hlen
    simp only [List.length_cons] at hlen
    have hclen : (c ++ [w]).length = c.length + 1 := by
      simp only [List.length_append, List.length_cons, List.length_nil]
    by_cases htrig : maxTokens ≤ (c ++ [w]).length
    · -- the appended word fills the window: emit it, keep the last 50 words
      have hceq : c.length + 1 = maxTokens := by omega
      have hws : ws.length = 1 := by omega
      obtain ⟨w2, rfl⟩ := List.length_eq_one.mp hws
      have hdroplen : ((c ++ [w]).drop ((c ++ [w]).length - 50)).length = 50 := by
        rw [List.length_drop]
        omega
      have hrest := splitLongAux_small maxTokens [w2]
        ((c ++ [w]).drop ((c ++ [w]).length - 50))
        (by rw [hdroplen, List.length_cons, List.length_nil]; omega)
      have hne : (((c ++ [w]).drop ((c ++ [w]).length - 50)) ++ [w2]).isEmpty = false := by
        simp
      rw [Chunker.splitLongAux, if_pos htrig, hrest, hne]
      have htake : List.take (maxTokens - c.length) [w, w2] = [w] := by
        have h1 : maxTokens - c.length = 1 := by omega
        rw [h1]
        rfl
      have hsplit : (c ++ [w, w2]).drop (maxTokens - 50) =
          ((c ++ [w]).drop (maxTokens - 50)) ++ [w2] := by
        have h2 : c ++ [w, w2] = (c ++ [w]) ++ [w2] := by simp
        rw [h2, List.drop_append_of_le_length (by omega)]
      rw [htake, hsplit, hclen, hceq]
      simp
    · -- the window is not yet full: keep accumulating
      have hlt2 : (c ++ [w]).length < maxTokens := by omega
      have ihs := ih (c ++ [w]) hlt2 (by rw [hclen]; omega)
      rw [Chunker.splitLongAux, if_neg htrig, ihs]
      have htake : w :: ws.take (maxTokens - (c ++ [w]).length) =
          (w :: ws).take (maxTokens - c.length) := by
        have h1 : maxTokens - c.length = (maxTokens - (c.length + 1)) + 1 := by omega
        rw [hclen, h1, List.take_succ_cons]
      have e1 : c ++ [w] ++ ws.take (maxTokens - (c ++ [w]).length) =
          c ++ (w :: ws).take (maxTokens - c.length) := by
        rw [List.append_assoc, List.singleton_append, htake]
      have e2 : c ++ [w] ++ ws = c ++ w :: ws := by simp
      rw [e1, e2]

/-- `C5` — A section body of exactly `maxTokens` whitespace-separated words
(52 ≤ maxTokens; the engine's `chunk_max_tokens` is 400) yields one window;
a body of `maxTokens + 1` words yields exactly two windows whose word lists
cover the input and overlap in exactly 50 words. -/
theorem split_long_boundary (maxTokens : ℕ) (text : String) (h52 : 52 ≤ maxTokens)
    (hne : ∃ c ∈ text.data, c.isWhitespace = false) :
    ((pyWords text).length = maxTokens →
      Chunker.split_long maxTokens text = [text]) ∧
    ((pyWords text).length = maxTokens + 1 →
      Chunker.split_long maxTokens text =
        [joinWords ((pyWords text).take maxTokens),
         joinWords ((pyWords text).drop (maxTokens - 50))] ∧
      (pyWords text).take maxTokens ++ ((pyWords text).drop (maxTokens - 50)).drop 50
        = pyWords text ∧
      ((pyWords text).take maxTokens).drop (maxTokens - 50)
        = ((pyWords text).drop (maxTokens - 50)).take 50) := by
  constructor
  · intro hlen
    have hstrip : (pyStrip text.data).isEmpty = false := pyStrip_isEmpty_false _ hne
    simp [Chunker.split_long, hlen, hstrip]
  · intro hlen
    have hgt : ¬ (pyWords text).length ≤ maxTokens := by omega
    have haux := splitLongAux_exact_overflow maxTokens h52 (pyWords text) []
      (by simp; omega) (by simpa using hlen)
    refine ⟨?_, ?_, ?_⟩
    · simp only [Chunker.split_long, if_neg hgt, haux]
      simp
    · rw [List.drop_drop]
      have h3 : maxTokens - 50 + 50 = maxTokens := by omega
      rw [h3, List.take_append_drop]
    · rw [List.drop_take]
      have : maxTokens - (maxTokens - 50) = 50 := by omega
      rw [this]

/-! ## Chunk ids (`C9`) -/

theorem md5_hexdigest_length (s : String) : (md5_hexdigest s).data.length = 32 := rfl

/-- `C9` (amended) — Every chunk the Chunker produces carries as id the MD5
hex digest (32 hex characters, 128 bits) of the string
`skill/file/section/first-50-characters-of-body`: the id is a deterministic
function of that quadruple, identical across runs; two chunks agreeing on
the quadruple therefore receive the same id. -/
theorem chunk_id_md5 (maxTokens : ℕ) (t f p sk : String) (d : List String) :
    (Chunker.chunk_file maxTokens t f p sk d).Forall (fun c =>
      c.id = md5_hexdigest (c.skill ++ "/" ++ c.file ++ "/" ++ c.sect ++ "/"
        ++ String.mk (c.text.data.take 50)) ∧
      c.skill = sk ∧ c.file = f ∧ c.id.data.length = 32) := by
  rw [List.forall_iff_forall_mem]
  intro c hc
  rw [Chunker.chunk_file] at hc
  rw [List.mem_flatMap] at hc
  obtain ⟨st, hst, hc2⟩ := hc
  rw [List.mem_map] at hc2
  obtain ⟨sub, hsub, rfl⟩ := hc2
  refine ⟨?_, rfl, rfl, md5_hexdigest_length _⟩
  exact congrArg md5_hexdigest rfl

/-- Counterexample to `C9`'s uniqueness clause: chunking `collideText`
produces two chunks with different bodies but the same id (their sections
share the title `A` and their bodies share their first 50 characters). -/
theorem chunk_id_unique_counterexample :
    (Chunker.chunk_file 400 collideText "f.md" "p/f.md" "s" []).length = 2 ∧
    ((Chunker.chunk_file 400 collideText "f.md" "p/f.md" "s" []).getD 0 default).text
      ≠ ((Chunker.chunk_file 400 collideText "f.md" "p/f.md" "s" []).getD 1 default).text ∧
    ((Chunker.chunk_file 400 collideText "f.md" "p/f.md" "s" []).getD 0 default).id
      = ((Chunker.chunk_file 400 collideText "f.md" "p/f.md" "s" []).getD 1 default).id :=
  ⟨rfl, by decide, rfl⟩

/-! ## Lemmas about `dictUpdate` and BM25 (`C6`) -/

theorem mem_dictUpdate {α : Type} {l : List (String × α)} {key : String}
    {f : Option α → α} {p : String × α} (hp : p ∈ dictUpdate l key f) :
    p ∈ l ∨ ∃ o, p = (key, f o) := by
  unfold dictUpdate at hp
  by_cases h : l.any (fun q => q.1 == key)
  · rw [if_pos h] at hp
    obtain ⟨q, hq, hq2⟩ := List.mem_map.mp hp
    by_cases hqk : (q.1 == key) = true
    · right
      refine ⟨some q.2, ?_⟩
      rw [if_pos hqk] at hq2
      have hk : q.1 = key := eq_of_beq hqk
      rw [← hq2, hk]
    · left
      rw [if_neg hqk] at hq2
      rw [← hq2]
      exact hq
  · rw [if_neg h] at hp
    rcases List.mem_append.mp hp with h1 | h2
    · exact Or.inl h1
    · right
      exact ⟨none, List.mem_singleton.mp h2⟩

theorem scoreEntries_spec (self : BM25) (qT : List String) :
    ∀ p ∈ BM25.scoreEntries self qT, 0 < p.2 ∧ ∃ d ∈ self.ids.zip self.docs,
      p.1 = d.1 ∧ p.2 = BM25.docScore self.k1 self.b self.docs.length
        (BM25.dfOf self.docs) (BM25.avgdlOf self.docs) qT d.2 := by
  unfold BM25.scoreEntries
  have H : ∀ (L : List (String × List String)),
      (∀ d ∈ L, d ∈ self.ids.zip self.docs) →
      ∀ (acc : List (String × ℝ)),
      (∀ p ∈ acc, 0 < p.2 ∧ ∃ d ∈ self.ids.zip self.docs,
        p.1 = d.1 ∧ p.2 = BM25.docScore self.k1 self.b self.docs.length
          (BM25.dfOf self.docs) (BM25.avgdlOf self.docs) qT d.2) →
      ∀ p ∈ L.foldl
        (fun acc pair =>
          let s := BM25.docScore self.k1 self.b self.docs.length (BM25.dfOf self.docs)
            (BM25.avgdlOf self.docs) qT pair.2
          if 0 < s then dictUpdate acc pair.1 (fun _ => s) else acc)
        acc,
        0 < p.2 ∧ ∃ d ∈ self.ids.zip self.docs,
          p.1 = d.1 ∧ p.2 = BM25.docScore self.k1 self.b self.docs.length
            (BM25.dfOf self.docs) (BM25.avgdlOf self.docs) qT d.2 := by
    intro L
    induction L with
    | nil =>
      intro _ acc hacc p hp
      exact hacc p hp
    | cons d L ih =>
      intro hsub acc hacc
      rw [List.foldl_cons]
      apply ih (fun x hx => hsub x (List.mem_cons_of_mem d hx))
      intro p hp
      dsimp only at hp
      by_cases hs : 0 < BM25.docScore self.k1 self.b self.docs.length
        (BM25.dfOf self.docs) (BM25.avgdlOf self.docs) qT d.2
      · rw [if_pos hs] at hp
        rcases mem_dictUpdate hp with h1 | ⟨o, rfl⟩
        · exact hacc p h1
        · exact ⟨hs, d, hsub d (List.mem_cons_self d L), rfl, rfl⟩
      · rw [if_neg hs] at hp
        exact hacc p hp
  exact H _ (fun d hd => hd) [] (by intro p hp; cases hp)

theorem scoreEntries_nil (self : BM25) : BM25.scoreEntries self [] = [] := by
  unfold BM25.scoreEntries
  have H : ∀ (L : List (String × List String)) (acc : List (String × ℝ)),
      L.foldl
        (fun acc pair =>
          let s := BM25.docScore self.k1 self.b self.docs.length (BM25.dfOf self.docs)
            (BM25.avgdlOf self.docs) [] pair.2
          if 0 < s then dictUpdate acc pair.1 (fun _ => s) else acc)
        acc = acc := by
    intro L
    induction L with
    | nil => intro acc; rfl
    | cons d L ih =>
      intro acc
      rw [List.foldl_cons, ih]
      show (if (0 : ℝ) < BM25.docScore self.k1 self.b self.docs.length
        (BM25.dfOf self.docs) (BM25.avgdlOf self.docs) [] d.2
        then dictUpdate acc d.1 _ else acc) = acc
      have hz : BM25.docScore self.k1 self.b self.docs.length
          (BM25.dfOf self.docs) (BM25.avgdlOf self.docs) [] d.2 = 0 := rfl
      rw [hz, if_neg (lt_irrefl (0 : ℝ))]
  exact H _ []

/-- `C6` — For every fitted corpus and query: `score(query, top_k)` returns
at most `top_k` pairs; every returned score is strictly positive and equals
the BM25 sum over the query's tokens with IDF
`log((N − df + 0.5) / (df + 0.5) + 1)` for some fitted document with that
id; pairs are ordered by non-increasing score; a query with no word tokens
returns the empty list. -/
theorem bm25_score_props (self : BM25) (query : String) (top_k : ℕ) :
    (BM25.score self query top_k).length ≤ top_k ∧
    (∀ p ∈ BM25.score self query top_k,
      0 < p.2 ∧ ∃ d ∈ self.ids.zip self.docs, p.1 = d.1 ∧
        p.2 = ((BM25.tokenize query).map (fun qt =>
          if d.2.contains qt then
            Real.log (((self.docs.length : ℝ) - (BM25.dfOf self.docs qt : ℝ) + 1 / 2)
                / ((BM25.dfOf self.docs qt : ℝ) + 1 / 2) + 1) *
              ((d.2.count qt : ℝ) * ((self.k1 : ℝ) + 1)) /
              ((d.2.count qt : ℝ) + (self.k1 : ℝ) *
                (1 - (self.b : ℝ) + (self.b : ℝ) * (d.2.length : ℝ)
                  / (BM25.avgdlOf self.docs : ℝ)))
          else 0)).sum) ∧
    (BM25.score self query top_k).Pairwise (fun a b => b.2 ≤ a.2) ∧
    (BM25.tokenize query = [] → BM25.score self query top_k = []) := by
  refine ⟨?_, ?_, ?_, ?_⟩
  · exact List.length_take_le _ _
  · intro p hp
    have hp2 : p ∈ List.insertionSort (fun a b => b.2 ≤ a.2)
        (BM25.scoreEntries self (BM25.tokenize query)) := List.mem_of_mem_take hp
    have hp3 : p ∈ BM25.scoreEntries self (BM25.tokenize query) :=
      (List.perm_insertionSort _ _).mem_iff.mp hp2
    obtain ⟨hpos, d, hd, heq1, heq2⟩ := scoreEntries_spec self _ p hp3
    exact ⟨hpos, d, hd, heq1, heq2⟩
  · apply List.Pairwise.sublist (List.take_sublist _ _)
    haveI : IsTotal (String × ℝ) (fun a b => b.2 ≤ a.2) := ⟨fun a b => le_total b.2 a.2⟩
    haveI : IsTrans (String × ℝ) (fun a b => b.2 ≤ a.2) := by
      constructor
      intro a b c h1 h2
      exact le_trans h2 h1
    exact List.sorted_insertionSort _ _
  · intro hq
    unfold BM25.score
    rw [hq, scoreEntries_nil]
    simp

/-! ## Lookup lemmas for the dict model -/

theorem find_map_upd {α : Type} (key : String) (f : Option α → α) :
    ∀ l : List (String × α),
      (l.map (fun p => if p.1 == key then (p.1, f (some p.2)) else p)).find?
          (fun p => p.1 == key)
        = (l.find? (fun p => p.1 == key)).map (fun p => (p.1, f (some p.2))) := by
  intro l
  induction l with
  | nil => rfl
  | cons q l ih =>
    rw [List.map_cons]
    by_cases hq : (q.1 == key) = true
    · rw [if_pos hq]
      simp only [List.find?_cons, hq]
      rfl
    · rw [if_neg hq]
      simp only [List.find?_cons]
      cases hqt : (q.1 == key) with
      | true => exact absurd hqt hq
      | false =>
        simp only [hqt]
        exact ih

theorem find_map_upd_other {α : Type} (k' t : String) (f : Option α → α) (h : t ≠ k') :
    ∀ l : List (String × α),
      (l.map (fun p => if p.1 == k' then (p.1, f (some p.2)) else p)).find?
          (fun p => p.1 == t)
        = l.find? (fun p => p.1 == t) := by
  intro l
  induction l with
  | nil => rfl
  | cons q l ih =>
    rw [List.map_cons]
    by_cases hqk : (q.1 == k') = true
    · have hqt : (q.1 == t) = false := by
        rw [beq_eq_false_iff_ne]
        intro he
        exact h ((eq_of_beq hqk) ▸ he).symm
      rw [if_pos hqk]
      simp only [List.find?_cons, hqt]
      exact ih
    · rw [if_neg hqk]
      simp only [List.find?_cons]
      cases hqt : (q.1 == t) with
      | true => simp only [hqt]
      | false =>
        simp only [hqt]
        exact ih

theorem dictFind_dictUpdate_self {α : Type} (l : List (String × α)) (key : String)
    (f : Option α → α) :
    dictFind (dictUpdate l key f) key = some (f (dictFind l key)) := by
  unfold dictUpdate dictFind
  by_cases h : l.any (fun p => p.1 == key)
  · rw [if_pos h, find_map_upd]
    obtain ⟨p, hp, hpk⟩ := List.any_eq_true.mp h
    have hsome : (l.find? (fun p => p.1 == key)).isSome :=
      List.find?_isSome.mpr ⟨p, hp, hpk⟩
    obtain ⟨q, hq⟩ := Option.isSome_iff_exists.mp hsome
    rw [hq]
    rfl
  · rw [if_neg h, List.find?_append]
    have hnone : l.find? (fun p => p.1 == key) = none := by
      rw [List.find?_eq_none]
      intro x hx hpx
      exact h (List.any_eq_true.mpr ⟨x, hx, hpx⟩)
    rw [hnone]
    simp

theorem dictFind_dictUpdate_other {α : Type} (l : List (String × α)) (k' t : String)
    (f : Option α → α) (h : t ≠ k') :
    dictFind (dictUpdate l k' f) t = dictFind l t := by
  unfold dictUpdate dictFind
  by_cases hany : l.any (fun p => p.1 == k')
  · rw [if_pos hany, find_map_upd_other k' t f h]
  · rw [if_neg hany, List.find?_append]
    have hsingle : List.find? (fun p => p.1 == t) [(k', f none)] = none := by
      have : ¬ ((k', f none).1 == t) = true := by
        simp only [beq_iff_eq]
        intro he
        exact h he.symm
      simp [this]
    rw [hsingle]
    cases l.find? (fun p => p.1 == t) <;> rfl

theorem dictFind_foldUpd {β : Type} (keyf : β → String) (Q : β → Prop) [DecidablePred Q]
    (stepf : ℚ → β → ℚ) (upd : List (String × ℚ) → β → List (String × ℚ))
    (hU : ∀ c x, upd c x
      = if Q x then dictUpdate c (keyf x) (fun o => stepf (o.getD 0) x) else c) :
    ∀ (L : List β) (cand : List (String × ℚ)) (t : String),
      dictFind (L.foldl upd cand) t
        = (if (L.filter (fun x => keyf x == t && decide (Q x))).isEmpty then dictFind cand t
           else some ((L.filter (fun x => keyf x == t && decide (Q x))).foldl stepf
             ((dictFind cand t).getD 0))) := by
  intro L
  induction L with
  | nil =>
    intro cand t
    simp
  | cons x L ih =>
    intro cand t
    rw [List.foldl_cons, List.filter_cons, hU]
    by_cases hq : Q x
    · rw [if_pos hq]
      by_cases hk : (keyf x == t) = true
      · have hcond : (keyf x == t && decide (Q x)) = true := by
          rw [hk, decide_eq_true hq, Bool.and_self]
        rw [if_pos hcond, ih]
        have hself : dictFind (dictUpdate cand (keyf x) (fun o => stepf (o.getD 0) x)) t
            = some (stepf ((dictFind cand t).getD 0) x) := by
          rw [← eq_of_beq hk]
          exact dictFind_dictUpdate_self cand (keyf x) _
        rw [hself]
        by_cases he : (L.filter (fun x => keyf x == t && decide (Q x))).isEmpty = true
        · rw [if_pos he, if_neg (by simp)]
          rw [List.isEmpty_iff.mp he]
          rfl
        · rw [if_neg he, if_neg (by simp), List.foldl_cons]
          rfl
      · have hcond : (keyf x == t && decide (Q x)) = false := by
          rw [Bool.eq_false_iff]
          intro hc
          exact hk (Bool.and_elim_left hc)
        have hoth : dictFind (dictUpdate cand (keyf x) (fun o => stepf (o.getD 0) x)) t
            = dictFind cand t := by
          apply dictFind_dictUpdate_other
          intro he
          exact hk (beq_iff_eq.mpr he.symm)
        rw [hcond, if_neg Bool.false_ne_true, ih, hoth]
    · rw [if_neg hq]
      have hcond : (keyf x == t && decide (Q x)) = false := by
        rw [decide_eq_false hq, Bool.and_false]
      rw [hcond, if_neg Bool.false_ne_true]
      exact ih cand t

theorem keys_nodup_dictUpdate {α : Type} (l : List (String × α)) (key : String)
    (f : Option α → α) (h : (l.map Prod.fst).Nodup) :
    ((dictUpdate l key f).map Prod.fst).Nodup := by
  unfold dictUpdate
  by_cases hany : l.any (fun p => p.1 == key)
  · rw [if_pos hany]
    have hmm : (l.map (fun p => if p.1 == key then (p.1, f (some p.2)) else p)).map Prod.fst
        = l.map Prod.fst := by
      rw [List.map_map]
      refine List.map_congr_left ?_
      intro p _
      show Prod.fst (if p.1 == key then (p.1, f (some p.2)) else p) = p.1
      split <;> rfl
    rw [hmm]
    exact h
  · rw [if_neg hany, List.map_append]
    rw [List.nodup_append]
    refine ⟨h, List.nodup_singleton _, ?_⟩
    intro a ha hb
    rw [List.map_singleton, List.mem_singleton] at hb
    subst hb
    obtain ⟨p, hp, hpf⟩ := List.mem_map.mp ha
    exact (Bool.eq_false_iff.mp (eq_false_of_ne_true (fun hc => hany
      (List.any_eq_true.mpr ⟨p, hp, hc⟩)))) (by rw [hpf]; exact beq_self_eq_true _)

theorem keys_nodup_foldUpd {β : Type} (keyf : β → String) (Q : β → Prop) [DecidablePred Q]
    (stepf : ℚ → β → ℚ) (upd : List (String × ℚ) → β → List (String × ℚ))
    (hU : ∀ c x, upd c x
      = if Q x then dictUpdate c (keyf x) (fun o => stepf (o.getD 0) x) else c) :
    ∀ (L : List β) (cand : List (String × ℚ)),
      ((cand.map Prod.fst).Nodup) → (((L.foldl upd cand).map Prod.fst).Nodup) := by
  intro L
  induction L with
  | nil => intro cand h; exact h
  | cons x L ih =>
    intro cand h
    rw [List.foldl_cons, hU]
    by_cases hq : Q x
    · rw [if_pos hq]
      exact ih _ (keys_nodup_dictUpdate cand (keyf x) _ h)
    · rw [if_neg hq]
      exact ih _ h

theorem dictFind_eq_of_mem {α : Type} :
    ∀ {l : List (String × α)}, (l.map Prod.fst).Nodup →
      ∀ {p : String × α}, p ∈ l → dictFind l p.1 = some p.2 := by
  intro l
  induction l with
  | nil => intro _ p hp; cases hp
  | cons q l ih =>
    intro h p hp
    rw [List.map_cons, List.nodup_cons] at h
    rcases List.mem_cons.mp hp with rfl | hp2
    · unfold dictFind
      rw [List.find?_cons, beq_self_eq_true]
      rfl
    · have hne : (q.1 == p.1) = false := by
        rw [Bool.eq_false_iff]
        intro hc
        exact h.1 ((eq_of_beq hc) ▸ List.mem_map_of_mem Prod.fst hp2)
      unfold dictFind
      rw [List.find?_cons, hne]
      exact ih h.2 hp2

theorem foldl_max_bound (l : List ℚ) (a : ℚ) :
    a ≤ l.foldl max a ∧ (∀ x ∈ l, x ≤ l.foldl max a) ∧
      (l.foldl max a = a ∨ l.foldl max a ∈ l) := by
  induction l generalizing a with
  | nil =>
    refine ⟨le_refl a, ?_, Or.inl rfl⟩
    intro x hx
    cases hx
  | cons y l ih =>
    obtain ⟨h1, h2, h3⟩ := ih (max a y)
    rw [List.foldl_cons]
    refine ⟨le_trans (le_max_left a y) h1, ?_, ?_⟩
    · intro x hx
      rcases List.mem_cons.mp hx with rfl | hx2
      · exact le_trans (le_max_right a x) h1
      · exact h2 x hx2
    · rcases h3 with he | hm
      · rw [he]
        rcases max_choice a y with hc | hc
        · exact Or.inl hc
        · rw [hc]
          exact Or.inr (List.mem_cons_self y l)
      · exact Or.inr (List.mem_cons_of_mem y hm)

/-! ## Lemmas for query expansion (`C7`) -/

theorem pairFold_snd (minw : ℚ) :
    ∀ (edges : List (String × ℚ)) (vis : List String) (cand : List (String × ℚ)),
      (edges.foldl
        (fun st2 nw =>
          if minw ≤ nw.2 then
            (st2.1, dictUpdate st2.2 nw.1 (fun o => max (o.getD 0) nw.2))
          else st2)
        (vis, cand))
      = (vis, edges.foldl
          (fun c nw =>
            if minw ≤ nw.2 then dictUpdate c nw.1 (fun o => max (o.getD 0) nw.2) else c)
          cand) := by
  intro edges
  induction edges with
  | nil => intro vis cand; rfl
  | cons nw edges ih =>
    intro vis cand
    rw [List.foldl_cons, List.foldl_cons]
    by_cases hw : minw ≤ nw.2
    · rw [if_pos hw, if_pos hw]
      exact ih vis _
    · rw [if_neg hw, if_neg hw]
      exact ih vis cand

theorem collectNeighbors_one (g : ConceptGraph) (minw : ℚ) (t : String)
    (vis : List String) (cand : List (String × ℚ)) :
    ConceptGraph.collectNeighbors g 1 minw t (vis, cand)
      = if t ∈ vis then (vis, cand)
        else (t :: vis, (g.edges t).foldl
          (fun c nw =>
            if minw ≤ nw.2 then dictUpdate c nw.1 (fun o => max (o.getD 0) nw.2) else c)
          cand) := by
  rw [show ConceptGraph.collectNeighbors g 1 minw t (vis, cand)
    = if t ∈ (vis, cand).1 then (vis, cand)
      else (g.edges t).foldl
        (fun st2 nw =>
          if minw ≤ nw.2 then
            let st3 := (st2.1, dictUpdate st2.2 nw.1 (fun o => max (o.getD 0) nw.2))
            if 0 < 0 then ConceptGraph.collectNeighbors g 0 (minw * (7 / 10)) nw.1 st3
            else st3
          else st2)
        (t :: (vis, cand).1, (vis, cand).2) from rfl]
  by_cases hv : t ∈ vis
  · rw [if_pos hv, if_pos hv]
  · rw [if_neg hv, if_neg hv]
    simp only [lt_irrefl, if_false]
    exact pairFold_snd minw (g.edges t) (t :: vis) cand

theorem candDict_eq (g : ConceptGraph) (query : String) (minw : ℚ) :
    ConceptGraph.candDict g query minw 1
      = ((ConceptGraph.resolvedSeeds g query).flatMap g.edges).foldl
          (fun c nw =>
            if minw ≤ nw.2 then dictUpdate c nw.1 (fun o => max (o.getD 0) nw.2) else c)
          [] := by
  unfold ConceptGraph.candDict
  have H : ∀ (seeds : List String) (cand0 : List (String × ℚ)),
      seeds.foldl
        (fun cand t => (ConceptGraph.collectNeighbors g 1 minw t ([], cand)).2) cand0
      = (seeds.flatMap g.edges).foldl
          (fun c nw =>
            if minw ≤ nw.2 then dictUpdate c nw.1 (fun o => max (o.getD 0) nw.2) else c)
          cand0 := by
    intro seeds
    induction seeds with
    | nil => intro cand0; rfl
    | cons s seeds ih =>
      intro cand0
      rw [List.foldl_cons, List.flatMap_cons, List.foldl_append, ← ih]
      rw [collectNeighbors_one g minw s [] cand0, if_neg (List.not_mem_nil s)]
  exact H _ []

theorem candDict_val (g : ConceptGraph) (query : String) (minw : ℚ) :
    ∀ p ∈ ConceptGraph.candDict g query minw 1,
      p.2 = ConceptGraph.bestSeedWeight g (ConceptGraph.resolvedSeeds g query) minw p.1 ∧
      (((ConceptGraph.resolvedSeeds g query).flatMap g.edges).filter
        (fun x => x.1 == p.1 && decide (minw ≤ x.2))).isEmpty = false := by
  intro p hp
  rw [candDict_eq] at hp
  have hU : ∀ (c : List (String × ℚ)) (x : String × ℚ),
      (fun c nw =>
        if minw ≤ nw.2 then dictUpdate c nw.1 (fun o => max (o.getD 0) nw.2) else c) c x
      = if minw ≤ x.2 then dictUpdate c x.1 (fun o => max (o.getD 0) x.2) else c :=
    fun c x => rfl
  have hnodup := keys_nodup_foldUpd Prod.fst (fun nw : String × ℚ => minw ≤ nw.2)
    (fun m nw => max m nw.2) _ hU
    ((ConceptGraph.resolvedSeeds g query).flatMap g.edges) [] List.nodup_nil
  have hfind := dictFind_eq_of_mem hnodup hp
  have hfold := dictFind_foldUpd Prod.fst (fun nw : String × ℚ => minw ≤ nw.2)
    (fun m nw => max m nw.2) _ hU
    ((ConceptGraph.resolvedSeeds g query).flatMap g.edges) [] p.1
  rw [hfind] at hfold
  by_cases he : (((ConceptGraph.resolvedSeeds g query).flatMap g.edges).filter
      (fun x => x.1 == p.1 && decide (minw ≤ x.2))).isEmpty = true
  · rw [if_pos he] at hfold
    exact absurd hfold (by simp [dictFind])
  · rw [if_neg he] at hfold
    have hval : p.2 = (((ConceptGraph.resolvedSeeds g query).flatMap g.edges).filter
        (fun x => x.1 == p.1 && decide (minw ≤ x.2))).foldl (fun m nw => max m nw.2) 0 := by
      have := Option.some.inj hfold
      simpa [dictFind] using this
    exact ⟨hval, eq_false_of_ne_true he⟩

/-- `C7` — For every concept graph and query, a depth-1 `expand` (the
engine's call) with threshold `minw > 0` returns at most `maxExp` terms;
no returned term is a token of the query's tokenisation or an
alias-resolved seed; the terms are ordered by non-increasing recorded
weight; and each returned term's recorded weight is attained by, and is an
upper bound of, the qualifying (≥ `minw`) edge weights by which the seeds
reach it. -/
theorem expand_props (g : ConceptGraph) (query : String) (maxExp : ℕ) (minw : ℚ)
    (hminw : 0 < minw) :
    (ConceptGraph.expandWith g query maxExp minw 1).length ≤ maxExp ∧
    (∀ t ∈ ConceptGraph.expandWith g query maxExp minw 1,
      t ∉ ConceptGraph.tokensOfQuery query ∧ t ∉ ConceptGraph.resolvedSeeds g query) ∧
    (ConceptGraph.expandWith g query maxExp minw 1).Pairwise
      (fun a b => ConceptGraph.bestSeedWeight g (ConceptGraph.resolvedSeeds g query) minw b
        ≤ ConceptGraph.bestSeedWeight g (ConceptGraph.resolvedSeeds g query) minw a) ∧
    (∀ t ∈ ConceptGraph.expandWith g query maxExp minw 1,
      (∃ p ∈ (ConceptGraph.resolvedSeeds g query).flatMap g.edges,
        p.1 = t ∧ minw ≤ p.2 ∧
          p.2 = ConceptGraph.bestSeedWeight g (ConceptGraph.resolvedSeeds g query) minw t) ∧
      (∀ q ∈ (ConceptGraph.resolvedSeeds g query).flatMap g.edges,
        q.1 = t → minw ≤ q.2 →
          q.2 ≤ ConceptGraph.bestSeedWeight g (ConceptGraph.resolvedSeeds g query) minw t)) := by
  have hmemb : ∀ t ∈ ConceptGraph.expandWith g query maxExp minw 1,
      ∃ p, p ∈ ConceptGraph.candDict g query minw 1 ∧ p.1 = t ∧
        ((ConceptGraph.resolvedSeeds g query).contains t
          || (ConceptGraph.tokensOfQuery query).contains t) = false := by
    intro t ht
    unfold ConceptGraph.expandWith at ht
    obtain ⟨p, hp, rfl⟩ := List.mem_map.mp ht
    have hp2 := List.mem_of_mem_take hp
    have hp3 := (List.perm_insertionSort (fun (a b : String × ℚ) => b.2 ≤ a.2) _).mem_iff.mp hp2
    have hp4 := List.mem_filter.mp hp3
    refine ⟨p, hp4.1, rfl, ?_⟩
    have := hp4.2
    rwa [Bool.not_eq_eq_eq_not, Bool.not_true] at this
  refine ⟨?_, ?_, ?_, ?_⟩
  · unfold ConceptGraph.expandWith
    rw [List.length_map]
    exact List.length_take_le _ _
  · intro t ht
    obtain ⟨p, _, rfl, hcont⟩ := hmemb t ht
    rw [Bool.or_eq_false_iff] at hcont
    constructor
    · intro hmem
      rw [show (ConceptGraph.tokensOfQuery query).contains p.1
        = (ConceptGraph.tokensOfQuery query).elem p.1 from rfl, List.elem_eq_mem,
        decide_eq_false_iff_not] at hcont
      exact hcont.2 hmem
    · intro hmem
      rw [show (ConceptGraph.resolvedSeeds g query).contains p.1
        = (ConceptGraph.resolvedSeeds g query).elem p.1 from rfl, List.elem_eq_mem,
        decide_eq_false_iff_not] at hcont
      exact hcont.1 hmem
  · unfold ConceptGraph.expandWith
    rw [List.pairwise_map]
    haveI : IsTotal (String × ℚ) (fun a b => b.2 ≤ a.2) := ⟨fun a b => le_total b.2 a.2⟩
    haveI : IsTrans (String × ℚ) (fun a b => b.2 ≤ a.2) := by
      constructor
      intro a b c h1 h2
      exact le_trans h2 h1
    have hsorted := List.sorted_insertionSort (fun (a b : String × ℚ) => b.2 ≤ a.2)
      ((ConceptGraph.candDict g query minw 1).filter
        (fun p => !((ConceptGraph.resolvedSeeds g query).contains p.1
          || (ConceptGraph.tokensOfQuery query).contains p.1)))
    have htake := hsorted.sublist (List.take_sublist maxExp _)
    refine htake.imp_of_mem ?_
    intro a b ha hb hab
    have hav := (candDict_val g query minw a
      (List.mem_of_mem_filter ((List.perm_insertionSort _ _).mem_iff.mp
        (List.mem_of_mem_take ha)))).1
    have hbv := (candDict_val g query minw b
      (List.mem_of_mem_filter ((List.perm_insertionSort _ _).mem_iff.mp
        (List.mem_of_mem_take hb)))).1
    rw [← hav, ← hbv]
    exact hab
  · intro t ht
    obtain ⟨p, hpc, rfl, _⟩ := hmemb t ht
    obtain ⟨hval, hne⟩ := candDict_val g query minw p hpc
    have hbsw : ConceptGraph.bestSeedWeight g (ConceptGraph.resolvedSeeds g query) minw p.1
        = ((((ConceptGraph.resolvedSeeds g query).flatMap g.edges).filter
            (fun x => x.1 == p.1 && decide (minw ≤ x.2))).map Prod.snd).foldl max 0 := by
      rw [List.foldl_map]
      rfl
    obtain ⟨hle0, hub, hor⟩ := foldl_max_bound
      ((((ConceptGraph.resolvedSeeds g query).flatMap g.edges).filter
        (fun x => x.1 == p.1 && decide (minw ≤ x.2))).map Prod.snd) 0
    have hmem_filter_le : ∀ q ∈ ((ConceptGraph.resolvedSeeds g query).flatMap g.edges).filter
        (fun x => x.1 == p.1 && decide (minw ≤ x.2)),
        q.2 ≤ ConceptGraph.bestSeedWeight g (ConceptGraph.resolvedSeeds g query) minw p.1 := by
      intro q hq
      rw [hbsw]
      exact hub q.2 (List.mem_map_of_mem Prod.snd hq)
    constructor
    · rcases hor with hzero | hattain
      · obtain ⟨x0, hx0⟩ := List.exists_mem_of_ne_nil _ (List.isEmpty_eq_false.mp hne)
        have hx0q := (List.mem_filter.mp hx0).2
        rw [Bool.and_eq_true, decide_eq_true_iff] at hx0q
        have hx0le := hub x0.2 (List.mem_map_of_mem Prod.snd hx0)
        rw [hzero] at hx0le
        exact absurd (lt_of_lt_of_le hminw hx0q.2) (not_lt.mpr hx0le)
      · obtain ⟨q, hqf, hqv⟩ := List.mem_map.mp hattain
        have hq2 := (List.mem_filter.mp hqf).2
        rw [Bool.and_eq_true, decide_eq_true_iff] at hq2
        exact ⟨q, (List.mem_filter.mp hqf).1, eq_of_beq hq2.1, hq2.2, by rw [hbsw, hqv]⟩
    · intro q hq hq1 hq2
      refine hmem_filter_le q (List.mem_filter.mpr ⟨hq, ?_⟩)
      rw [Bool.and_eq_true, decide_eq_true_iff]
      exact ⟨beq_iff_eq.mpr hq1, hq2⟩

/-- Witness for `C7`'s theorem at the default threshold `min_weight = 0.5`
on a one-edge graph and the query `"a"`. -/
theorem expand_props_witness :
    (ConceptGraph.expandWith sampleGraph "a" 6 (1 / 2) 1).length ≤ 6 ∧
    (∀ t ∈ ConceptGraph.expandWith sampleGraph "a" 6 (1 / 2) 1,
      t ∉ ConceptGraph.tokensOfQuery "a" ∧ t ∉ ConceptGraph.resolvedSeeds sampleGraph "a") ∧
    (ConceptGraph.expandWith sampleGraph "a" 6 (1 / 2) 1).Pairwise
      (fun a b => ConceptGraph.bestSeedWeight sampleGraph
          (ConceptGraph.resolvedSeeds sampleGraph "a") (1 / 2) b
        ≤ ConceptGraph.bestSeedWeight sampleGraph
          (ConceptGraph.resolvedSeeds sampleGraph "a") (1 / 2) a) ∧
    (∀ t ∈ ConceptGraph.expandWith sampleGraph "a" 6 (1 / 2) 1,
      (∃ p ∈ (ConceptGraph.resolvedSeeds sampleGraph "a").flatMap sampleGraph.edges,
        p.1 = t ∧ (1 / 2 : ℚ) ≤ p.2 ∧
          p.2 = ConceptGraph.bestSeedWeight sampleGraph
            (ConceptGraph.resolvedSeeds sampleGraph "a") (1 / 2) t) ∧
      (∀ q ∈ (ConceptGraph.resolvedSeeds sampleGraph "a").flatMap sampleGraph.edges,
        q.1 = t → (1 / 2 : ℚ) ≤ q.2 →
          q.2 ≤ ConceptGraph.bestSeedWeight sampleGraph
            (ConceptGraph.resolvedSeeds sampleGraph "a") (1 / 2) t)) :=
  expand_props sampleGraph "a" 6 (1 / 2) (by norm_num)

/-! ## Lemmas for Reciprocal Rank Fusion (`C4`) -/

theorem foldl_add_eq_sum {β : Type} (f : β → ℚ) :
    ∀ (l : List β) (v : ℚ), l.foldl (fun a x => a + f x) v = v + (l.map f).sum := by
  intro l
  induction l with
  | nil => intro v; simp
  | cons x l ih =>
    intro v
    rw [List.foldl_cons, ih, List.map_cons, List.sum_cons]
    ring

theorem rrfSemDict_find (k : ℚ) (sem : List (String × ℚ × ℕ)) (i : String) :
    dictFind (rrfSemDict k sem) i
      = if (sem.enum.filter (fun pr => pr.2.1 == i)).isEmpty then none
        else some (rrfContrib k sem (fun x => x.1) i) := by
  have h := dictFind_foldUpd (fun pr : ℕ × (String × ℚ × ℕ) => pr.2.1) (fun _ => True)
    (fun m pr => m + 1 / (k + (pr.1 : ℚ) + 1))
    (fun acc pr => dictUpdate acc pr.2.1 (fun o => o.getD 0 + 1 / (k + (pr.1 : ℚ) + 1)))
    (fun c x => by rw [if_pos trivial]) sem.enum [] i
  simp only [decide_True, Bool.and_true] at h
  unfold rrfSemDict
  rw [h]
  by_cases he : (sem.enum.filter (fun pr => pr.2.1 == i)).isEmpty = true
  · rw [if_pos he, if_pos he]
    rfl
  · rw [if_neg he, if_neg he]
    rw [foldl_add_eq_sum (fun pr : ℕ × (String × ℚ × ℕ) => 1 / (k + (pr.1 : ℚ) + 1))]
    show some ((Option.getD (dictFind [] i) 0) + _) = _
    rw [show dictFind ([] : List (String × ℚ)) i = none from rfl]
    rw [show Option.getD (none : Option ℚ) 0 = 0 from rfl, zero_add]
    rfl

theorem rrfDict_find (k : ℚ) (sem : List (String × ℚ × ℕ)) (bsorted : List (String × ℚ))
    (i : String) :
    dictFind (rrfDict k sem bsorted) i
      = if (sem.enum.filter (fun pr => pr.2.1 == i)).isEmpty
          && (bsorted.enum.filter (fun pr => pr.2.1 == i)).isEmpty then none
        else some (rrfContrib k sem (fun x => x.1) i + rrfContrib k bsorted Prod.fst i) := by
  have h := dictFind_foldUpd (fun pr : ℕ × (String × ℚ) => pr.2.1) (fun _ => True)
    (fun m pr => m + 1 / (k + (pr.1 : ℚ) + 1))
    (fun acc pr => dictUpdate acc pr.2.1 (fun o => o.getD 0 + 1 / (k + (pr.1 : ℚ) + 1)))
    (fun c x => by rw [if_pos trivial]) bsorted.enum (rrfSemDict k sem) i
  simp only [decide_True, Bool.and_true] at h
  unfold rrfDict
  rw [h, rrfSemDict_find]
  have hfoldB : ∀ v : ℚ, (bsorted.enum.filter (fun pr => pr.2.1 == i)).foldl
      (fun m pr => m + 1 / (k + (pr.1 : ℚ) + 1)) v = v + rrfContrib k bsorted Prod.fst i := by
    intro v
    rw [foldl_add_eq_sum (fun pr : ℕ × (String × ℚ) => 1 / (k + (pr.1 : ℚ) + 1))]
    rfl
  by_cases hb : (bsorted.enum.filter (fun pr => pr.2.1 == i)).isEmpty = true
  · have hbnil := List.isEmpty_iff.mp hb
    have hcB : rrfContrib k bsorted Prod.fst i = 0 := by
      unfold rrfContrib
      rw [hbnil]
      rfl
    rw [if_pos hb]
    by_cases hs : (sem.enum.filter (fun pr => pr.2.1 == i)).isEmpty = true
    · rw [if_pos hs, if_pos (by rw [hs, hb]; rfl)]
    · rw [if_neg hs, if_neg (by rw [eq_false_of_ne_true hs]; simp), hcB, add_zero]
  · have hgetD : (Option.getD (if (sem.enum.filter (fun pr => pr.2.1 == i)).isEmpty = true
        then none else some (rrfContrib k sem (fun x => x.1) i)) 0)
        = rrfContrib k sem (fun x => x.1) i := by
      by_cases hs : (sem.enum.filter (fun pr => pr.2.1 == i)).isEmpty = true
      · rw [if_pos hs]
        have hsnil := List.isEmpty_iff.mp hs
        show (0 : ℚ) = _
        unfold rrfContrib
        rw [hsnil]
        rfl
      · rw [if_neg hs]
        rfl
    rw [if_neg hb, hgetD, hfoldB, if_neg (by rw [eq_false_of_ne_true hb]; simp)]

theorem rrfDict_keys_nodup (k : ℚ) (sem : List (String × ℚ × ℕ))
    (bsorted : List (String × ℚ)) :
    ((rrfDict k sem bsorted).map Prod.fst).Nodup := by
  unfold rrfDict
  apply keys_nodup_foldUpd (fun pr : ℕ × (String × ℚ) => pr.2.1) (fun _ => True)
    (fun m pr => m + 1 / (k + (pr.1 : ℚ) + 1)) _ (fun c x => by rw [if_pos trivial])
  unfold rrfSemDict
  apply keys_nodup_foldUpd (fun pr : ℕ × (String × ℚ × ℕ) => pr.2.1) (fun _ => True)
    (fun m pr => m + 1 / (k + (pr.1 : ℚ) + 1)) _ (fun c x => by rw [if_pos trivial])
  exact List.nodup_nil

theorem fuseItem_fields (store : String → Option (String × ChunkMeta))
    (sem : List (String × ℚ × ℕ)) (bsorted : List (String × ℚ))
    (pr : String × ℚ) (r : SearchResult) (h : fuseItem store sem bsorted pr = some r) :
    r.final_score = pr.2 ∧ r.chunk.id = pr.1 ∧ (store pr.1).isSome = true := by
  unfold fuseItem at h
  cases hst : store pr.1 with
  | none =>
    rw [hst] at h
    cases h
  | some dm =>
    rw [hst] at h
    cases h
    exact ⟨rfl, rfl, rfl⟩

/-- `C4` — For every pair of candidate lists, every result `_rrf_fuse`
returns carries as `final_score` the sum, over the semantic list and the
descending-sorted lexical list, of `1/(60 + rank + 1)` at each zero-based
position `rank` holding its id; results come only from ids the store
holds (missing ids are skipped, never raised); every stored fused id does
appear; and `final_score` is monotone non-increasing over the returned
list (the ordering reranking-disabled search reports). -/
theorem rrf_fuse_props (store : String → Option (String × ChunkMeta))
    (sem : List (String × ℚ × ℕ)) (bm25 : List (String × ℚ)) :
    (∀ r ∈ rrfFuse store sem bm25 60,
      r.final_score = rrfContrib 60 sem (fun x => x.1) r.chunk.id
        + rrfContrib 60 (List.insertionSort (fun (a b : String × ℚ) => b.2 ≤ a.2) bm25)
            Prod.fst r.chunk.id
      ∧ (store r.chunk.id).isSome = true) ∧
    (rrfFuse store sem bm25 60).Pairwise (fun a b => b.final_score ≤ a.final_score) ∧
    (∀ i s, (i, s) ∈ rrfDict 60 sem
        (List.insertionSort (fun (a b : String × ℚ) => b.2 ≤ a.2) bm25) →
      (store i).isSome = true →
      i ∈ (rrfFuse store sem bm25 60).map (fun r => r.chunk.id)) := by
  have hunfold : rrfFuse store sem bm25 60
      = if (rrfDict 60 sem
            (List.insertionSort (fun (a b : String × ℚ) => b.2 ≤ a.2) bm25)).isEmpty then []
        else (List.insertionSort (fun (a b : String × ℚ) => b.2 ≤ a.2)
            (rrfDict 60 sem
              (List.insertionSort (fun (a b : String × ℚ) => b.2 ≤ a.2) bm25))).filterMap
          (fuseItem store sem
            (List.insertionSort (fun (a b : String × ℚ) => b.2 ≤ a.2) bm25)) := rfl
  by_cases hemp : (rrfDict 60 sem
      (List.insertionSort (fun (a b : String × ℚ) => b.2 ≤ a.2) bm25)).isEmpty = true
  · rw [hunfold, if_pos hemp]
    refine ⟨?_, List.Pairwise.nil, ?_⟩
    · intro r hr
      cases hr
    · intro i s hmem _
      rw [List.isEmpty_iff.mp hemp] at hmem
      cases hmem
  · rw [hunfold, if_neg hemp]
    refine ⟨?_, ?_, ?_⟩
    · intro r hr
      obtain ⟨pr, hprmem, hpr⟩ := List.mem_filterMap.mp hr
      obtain ⟨hfs, hid, hsome⟩ := fuseItem_fields _ _ _ _ _ hpr
      have hprin : pr ∈ rrfDict 60 sem
          (List.insertionSort (fun (a b : String × ℚ) => b.2 ≤ a.2) bm25) :=
        (List.perm_insertionSort _ _).mem_iff.mp hprmem
      have hfind := dictFind_eq_of_mem (rrfDict_keys_nodup 60 sem _) hprin
      rw [rrfDict_find] at hfind
      by_cases hcond : ((sem.enum.filter (fun pr2 => pr2.2.1 == pr.1)).isEmpty
          && ((List.insertionSort (fun (a b : String × ℚ) => b.2 ≤ a.2)
            bm25).enum.filter (fun pr2 => pr2.2.1 == pr.1)).isEmpty) = true
      · rw [if_pos hcond] at hfind
        cases hfind
      · rw [if_neg hcond] at hfind
        have hval := Option.some.inj hfind
        rw [hid, hfs, hval]
        exact ⟨rfl, hid ▸ hsome⟩
    · haveI : IsTotal (String × ℚ) (fun a b => b.2 ≤ a.2) := ⟨fun a b => le_total b.2 a.2⟩
      haveI : IsTrans (String × ℚ) (fun a b => b.2 ≤ a.2) := by
        constructor
        intro a b c h1 h2
        exact le_trans h2 h1
      refine List.Pairwise.filterMap _ ?_ (List.sorted_insertionSort _ _)
      intro p q hpq r1 hr1 r2 hr2
      rw [Option.mem_def] at hr1 hr2
      obtain ⟨hf1, _, _⟩ := fuseItem_fields _ _ _ _ _ hr1
      obtain ⟨hf2, _, _⟩ := fuseItem_fields _ _ _ _ _ hr2
      rw [hf1, hf2]
      exact hpq
    · intro i s hmem hsome
      obtain ⟨dm, hdm⟩ := Option.isSome_iff_exists.mp hsome
      have hfi : ∃ r, fuseItem store sem
          (List.insertionSort (fun (a b : String × ℚ) => b.2 ≤ a.2) bm25) (i, s)
          = some r := by
        unfold fuseItem
        rw [show ((i, s) : String × ℚ).1 = i from rfl, hdm]
        exact ⟨_, rfl⟩
      obtain ⟨r, hr⟩ := hfi
      have hrin : r ∈ (List.insertionSort (fun (a b : String × ℚ) => b.2 ≤ a.2)
          (rrfDict 60 sem
            (List.insertionSort (fun (a b : String × ℚ) => b.2 ≤ a.2) bm25))).filterMap
          (fuseItem store sem
            (List.insertionSort (fun (a b : String × ℚ) => b.2 ≤ a.2) bm25)) :=
        List.mem_filterMap.mpr ⟨(i, s), (List.perm_insertionSort _ _).mem_iff.mpr hmem, hr⟩
      obtain ⟨_, hid, _⟩ := fuseItem_fields _ _ _ _ _ hr
      exact List.mem_map.mpr ⟨r, hrin, hid⟩

/-! ## Cosine safety (`C10`) and skill matching (`C8`) -/

/-- `C10` — The engine's cosine helper returns `dot(a,b) / (‖a‖‖b‖)` when
both norms are nonzero and 0.0 otherwise; in particular it never divides
by zero, and an all-zero embedding always yields 0. -/
theorem cosine_safe (a b : List ℚ) :
    ((Real.sqrt ((a.map (fun x : ℚ => (x : ℝ) * (x : ℝ))).sum) ≠ 0 ∧
      Real.sqrt ((b.map (fun x : ℚ => (x : ℝ) * (x : ℝ))).sum) ≠ 0) →
      MaestroEngine.cosine a b
        = ((a.zip b).map (fun p : ℚ × ℚ => (p.1 : ℝ) * (p.2 : ℝ))).sum
          / (Real.sqrt ((a.map (fun x : ℚ => (x : ℝ) * (x : ℝ))).sum)
            * Real.sqrt ((b.map (fun x : ℚ => (x : ℝ) * (x : ℝ))).sum))) ∧
    ((Real.sqrt ((a.map (fun x : ℚ => (x : ℝ) * (x : ℝ))).sum) = 0 ∨
      Real.sqrt ((b.map (fun x : ℚ => (x : ℝ) * (x : ℝ))).sum) = 0) →
      MaestroEngine.cosine a b = 0) ∧
    (∀ n : ℕ, MaestroEngine.cosine (List.replicate n 0) b = 0) := by
  have hcos : ∀ a' : List ℚ, MaestroEngine.cosine a' b
      = if Real.sqrt ((a'.map (fun x : ℚ => (x : ℝ) * (x : ℝ))).sum) = 0 ∨
            Real.sqrt ((b.map (fun x : ℚ => (x : ℝ) * (x : ℝ))).sum) = 0 then 0
        else ((a'.zip b).map (fun p : ℚ × ℚ => (p.1 : ℝ) * (p.2 : ℝ))).sum
          / (Real.sqrt ((a'.map (fun x : ℚ => (x : ℝ) * (x : ℝ))).sum)
            * Real.sqrt ((b.map (fun x : ℚ => (x : ℝ) * (x : ℝ))).sum)) :=
    fun a' => rfl
  refine ⟨?_, ?_, ?_⟩
  · rintro ⟨h1, h2⟩
    rw [hcos a, if_neg (not_or.mpr ⟨h1, h2⟩)]
  · intro h
    rw [hcos a, if_pos h]
  · intro n
    have hz : ((List.replicate n (0 : ℚ)).map (fun x : ℚ => (x : ℝ) * (x : ℝ))).sum = 0 := by
      rw [List.map_replicate]
      simp
    rw [hcos (List.replicate n 0), if_pos (Or.inl (by rw [hz, Real.sqrt_zero]))]

theorem keys_filterMap_sublist {β : Type} (F : String × β → Option (String × ℝ))
    (hF : ∀ x p, F x = some p → p.1 = x.1) :
    ∀ l : List (String × β), ((l.filterMap F).map Prod.fst).Sublist (l.map Prod.fst) := by
  intro l
  induction l with
  | nil => exact List.Sublist.refl []
  | cons x l ih =>
    rw [List.filterMap_cons, List.map_cons]
    cases hFx : F x with
    | none => exact ih.cons x.1
    | some p =>
      rw [List.map_cons, hF x p hFx]
      exact ih.cons₂ x.1

/-- `C8` — For a non-empty fingerprint registry whose entries all carry
embeddings: `_match_skills` returns at most 8 skills; every similarity is
bounded by the top similarity; every returned skill scores at least
`0.6 × top`; when fewer than 8 skills are returned, every skill scoring at
least `0.6 × top` is returned; and the returned skills are ordered by
descending similarity. -/
theorem match_skills_props (fps : List (String × SkillFingerprint)) (q : List ℚ)
    (hne : fps ≠ [])
    (hemb : ∀ nf ∈ fps, ∃ e, nf.2.embedding = some e ∧ e ≠ [])
    (hkeys : (fps.map Prod.fst).Nodup) :
    (MaestroEngine.matchSkills fps q).length ≤ 8 ∧
    (∀ p ∈ MaestroEngine.simScores fps q, p.2 ≤ MaestroEngine.topSim fps q) ∧
    (∀ n ∈ MaestroEngine.matchSkills fps q, ∃ s, (n, s) ∈ MaestroEngine.simScores fps q ∧
      MaestroEngine.topSim fps q * (0.6 : ℝ) ≤ s) ∧
    (∀ p ∈ MaestroEngine.simScores fps q,
      MaestroEngine.topSim fps q * (0.6 : ℝ) ≤ p.2 →
      (MaestroEngine.matchSkills fps q).length < 8 →
      p.1 ∈ MaestroEngine.matchSkills fps q) ∧
    (MaestroEngine.matchSkills fps q).Pairwise
      (fun a b => (dictFind (MaestroEngine.simScores fps q) b).getD 0
        ≤ (dictFind (MaestroEngine.simScores fps q) a).getD 0) := by
  obtain ⟨nf0, hnf0⟩ := List.exists_mem_of_ne_nil fps hne
  obtain ⟨e0, he0, hene0⟩ := hemb nf0 hnf0
  have hF0 : (fun nf : String × SkillFingerprint =>
      match nf.2.embedding with
      | none => none
      | some e => if e.isEmpty then none else some (nf.1, MaestroEngine.cosine q e)) nf0
      = some (nf0.1, MaestroEngine.cosine q e0) := by
    show (match nf0.2.embedding with
      | none => none
      | some e => if e.isEmpty = true then none
          else some (nf0.1, MaestroEngine.cosine q e)) = _
    rw [he0]
    show (if e0.isEmpty = true then none
      else some (nf0.1, MaestroEngine.cosine q e0)) = _
    rw [if_neg (by rw [List.isEmpty_eq_false.mpr hene0]; exact Bool.false_ne_true)]
  have hs0 : (nf0.1, MaestroEngine.cosine q e0) ∈ MaestroEngine.simScores fps q :=
    List.mem_filterMap.mpr ⟨nf0, hnf0, hF0⟩
  have hsne : MaestroEngine.simScores fps q ≠ [] := List.ne_nil_of_mem hs0
  have hkeys2 : ((MaestroEngine.simScores fps q).map Prod.fst).Nodup := by
    refine List.Nodup.sublist ?_ hkeys
    refine keys_filterMap_sublist _ ?_ fps
    intro x p hx
    revert hx
    show (match x.2.embedding with
      | none => none
      | some e => if e.isEmpty = true then none
          else some (x.1, MaestroEngine.cosine q e)) = some p → p.1 = x.1
    cases x.2.embedding with
    | none => intro hc; cases hc
    | some e =>
      show (if e.isEmpty = true then none
        else some (x.1, MaestroEngine.cosine q e)) = some p → p.1 = x.1
      by_cases he : e.isEmpty = true
      · rw [if_pos he]
        intro hc
        cases hc
      · rw [if_neg he]
        intro hc
        cases hc
        rfl
  haveI : IsTotal (String × ℝ) (fun a b => b.2 ≤ a.2) := ⟨fun a b => le_total b.2 a.2⟩
  haveI : IsTrans (String × ℝ) (fun a b => b.2 ≤ a.2) := by
    constructor
    intro a b c h1 h2
    exact le_trans h2 h1
  have hsorted := List.sorted_insertionSort (fun (a b : String × ℝ) => b.2 ≤ a.2)
    (MaestroEngine.simScores fps q)
  have hperm := List.perm_insertionSort (fun (a b : String × ℝ) => b.2 ≤ a.2)
    (MaestroEngine.simScores fps q)
  have hsortne : List.insertionSort (fun (a b : String × ℝ) => b.2 ≤ a.2)
      (MaestroEngine.simScores fps q) ≠ [] := by
    intro hc
    rw [hc] at hperm
    exact hsne hperm.symm.eq_nil
  have hmax : ∀ p ∈ MaestroEngine.simScores fps q, p.2 ≤ MaestroEngine.topSim fps q := by
    intro p hp
    have hp2 := hperm.mem_iff.mpr hp
    unfold MaestroEngine.topSim
    cases hsort : List.insertionSort (fun (a b : String × ℝ) => b.2 ≤ a.2)
        (MaestroEngine.simScores fps q) with
    | nil => exact absurd hsort hsortne
    | cons h t =>
      rw [hsort] at hp2 hsorted
      rcases List.mem_cons.mp hp2 with rfl | hpt
      · exact le_refl _
      · exact (List.pairwise_cons.mp hsorted).1 p hpt
  have hms : MaestroEngine.matchSkills fps q
      = (((List.insertionSort (fun (a b : String × ℝ) => b.2 ≤ a.2)
          (MaestroEngine.simScores fps q)).filter
          (fun p => decide ((List.insertionSort (fun (a b : String × ℝ) => b.2 ≤ a.2)
            (MaestroEngine.simScores fps q)).headI.2 * (0.6 : ℝ) ≤ p.2))).map
          Prod.fst).take 8 := by
    unfold MaestroEngine.matchSkills
    rw [if_neg (by rw [List.isEmpty_eq_false.mpr hne]; exact Bool.false_ne_true)]
    rw [if_neg (by rw [List.isEmpty_eq_false.mpr hsne]; exact Bool.false_ne_true)]
  have htop : MaestroEngine.topSim fps q
      = (List.insertionSort (fun (a b : String × ℝ) => b.2 ≤ a.2)
          (MaestroEngine.simScores fps q)).headI.2 := rfl
  refine ⟨?_, hmax, ?_, ?_, ?_⟩
  · rw [hms, List.length_take]
    exact min_le_left _ _
  · intro n hn
    rw [hms] at hn
    obtain ⟨p, hp, rfl⟩ := List.mem_map.mp (List.mem_of_mem_take hn)
    have hpf := List.mem_filter.mp hp
    refine ⟨p.2, hperm.mem_iff.mp hpf.1, ?_⟩
    rw [htop]
    exact of_decide_eq_true hpf.2
  · intro p hp hq hlen
    rw [hms] at hlen ⊢
    rw [List.length_take] at hlen
    have hlen2 : (((List.insertionSort (fun (a b : String × ℝ) => b.2 ≤ a.2)
        (MaestroEngine.simScores fps q)).filter
        (fun p => decide ((List.insertionSort (fun (a b : String × ℝ) => b.2 ≤ a.2)
          (MaestroEngine.simScores fps q)).headI.2 * (0.6 : ℝ) ≤ p.2))).map
        Prod.fst).length < 8 := by
      rcases Nat.lt_or_ge (((List.insertionSort (fun (a b : String × ℝ) => b.2 ≤ a.2)
          (MaestroEngine.simScores fps q)).filter
          (fun p => decide ((List.insertionSort (fun (a b : String × ℝ) => b.2 ≤ a.2)
            (MaestroEngine.simScores fps q)).headI.2 * (0.6 : ℝ) ≤ p.2))).map
          Prod.fst).length 8 with hlt | hge
      · exact hlt
      · rw [min_eq_left hge] at hlen
        omega
    rw [List.take_of_length_le (le_of_lt hlen2)]
    refine List.mem_map.mpr ⟨p, ?_, rfl⟩
    refine List.mem_filter.mpr ⟨hperm.mem_iff.mpr hp, ?_⟩
    rw [decide_eq_true_eq]
    rw [htop] at hq
    exact hq
  · rw [hms, ← List.map_take, List.pairwise_map]
    have hfilt : (List.filter
        (fun p => decide ((List.insertionSort (fun (a b : String × ℝ) => b.2 ≤ a.2)
          (MaestroEngine.simScores fps q)).headI.2 * (0.6 : ℝ) ≤ p.2))
        (List.insertionSort (fun (a b : String × ℝ) => b.2 ≤ a.2)
          (MaestroEngine.simScores fps q))).Pairwise
        (fun (a b : String × ℝ) => b.2 ≤ a.2) :=
      hsorted.sublist (List.filter_sublist _)
    have htake := hfilt.sublist (List.take_sublist 8 _)
    refine htake.imp_of_mem ?_
    intro x y hx hy hxy
    have hxs : x ∈ MaestroEngine.simScores fps q :=
      hperm.mem_iff.mp (List.mem_of_mem_filter (List.mem_of_mem_take hx))
    have hys : y ∈ MaestroEngine.simScores fps q :=
      hperm.mem_iff.mp (List.mem_of_mem_filter (List.mem_of_mem_take hy))
    rw [dictFind_eq_of_mem hkeys2 hxs, dictFind_eq_of_mem hkeys2 hys]
    exact hxy

/-- A one-entry fingerprint registry with a non-empty embedding. -/
theorem match_skills_props_witness :
    (MaestroEngine.matchSkills sampleFps [1]).length ≤ 8 ∧
    (∀ p ∈ MaestroEngine.simScores sampleFps [1], p.2 ≤ MaestroEngine.topSim sampleFps [1]) ∧
    (∀ n ∈ MaestroEngine.matchSkills sampleFps [1],
      ∃ s, (n, s) ∈ MaestroEngine.simScores sampleFps [1] ∧
        MaestroEngine.topSim sampleFps [1] * (0.6 : ℝ) ≤ s) ∧
    (∀ p ∈ MaestroEngine.simScores sampleFps [1],
      MaestroEngine.topSim sampleFps [1] * (0.6 : ℝ) ≤ p.2 →
      (MaestroEngine.matchSkills sampleFps [1]).length < 8 →
      p.1 ∈ MaestroEngine.matchSkills sampleFps [1]) ∧
    (MaestroEngine.matchSkills sampleFps [1]).Pairwise
      (fun a b => (dictFind (MaestroEngine.simScores sampleFps [1]) b).getD 0
        ≤ (dictFind (MaestroEngine.simScores sampleFps [1]) a).getD 0) :=
  match_skills_props sampleFps [1] (by decide)
    (by
      intro nf hnf
      unfold sampleFps at hnf
      rw [List.mem_singleton] at hnf
      subst hnf
      exact ⟨[1], rfl, by decide⟩)
    (by decide)

/-- Witness for `C5`'s theorem at `maxTokens = 52` and a 53-word body. -/
theorem split_long_boundary_witness :
    ((pyWords sample53).length = 52 →
      Chunker.split_long 52 sample53 = [sample53]) ∧
    ((pyWords sample53).length = 52 + 1 →
      Chunker.split_long 52 sample53 =
        [joinWords ((pyWords sample53).take 52),
         joinWords ((pyWords sample53).drop (52 - 50))] ∧
      (pyWords sample53).take 52 ++ ((pyWords sample53).drop (52 - 50)).drop 50
        = pyWords sample53 ∧
      ((pyWords sample53).take 52).drop (52 - 50)
        = ((pyWords sample53).drop (52 - 50)).take 50) :=
  split_long_boundary 52 sample53 (by decide) (by decide)

/-! ## C2 — the query cache and the `from_cache` flag -/

/-- `search` with caching enabled reduced over the cache-check result. -/
theorem search_cache_eq (pipe : String → PipeOut) (embedQ : String → List ℚ)
    (cs : ℚ) (st : List (String × SearchResponse)) (q : String) :
    MaestroEngine.search pipe embedQ true cs st q =
      match MaestroEngine.checkCache embedQ cs st q with
      | some entry =>
        ({ entry.2 with from_cache := true },
         dictUpdate st entry.1 (fun _ => { entry.2 with from_cache := true }))
      | none =>
        ({ query := q, results := (pipe q).results,
           skills_used := (pipe q).skills_used, time_ms := (pipe q).time_ms,
           from_cache := false, expanded_terms := (pipe q).expanded_terms },
         dictUpdate st q (fun _ =>
           { query := q, results := (pipe q).results,
             skills_used := (pipe q).skills_used, time_ms := (pipe q).time_ms,
             from_cache := false, expanded_terms := (pipe q).expanded_terms })) := by
  unfold MaestroEngine.search
  rfl

/-- `search` on a cache miss: a fresh response, stored under the query. -/
theorem search_miss (pipe : String → PipeOut) (embedQ : String → List ℚ)
    (cs : ℚ) (st : List (String × SearchResponse)) (q : String)
    (hmiss : MaestroEngine.checkCache embedQ cs st q = none) :
    MaestroEngine.search pipe embedQ true cs st q =
      ({ query := q, results := (pipe q).results,
         skills_used := (pipe q).skills_used, time_ms := (pipe q).time_ms,
         from_cache := false, expanded_terms := (pipe q).expanded_terms },
       dictUpdate st q (fun _ =>
         { query := q, results := (pipe q).results,
           skills_used := (pipe q).skills_used, time_ms := (pipe q).time_ms,
           from_cache := false, expanded_terms := (pipe q).expanded_terms })) := by
  rw [search_cache_eq, hmiss]

/-- `search` on a cache hit at key `key` holding `r`: the returned
response is `r` with `from_cache := true`, and the entry at `key` is
updated to that same response. -/
theorem search_hit (pipe : String → PipeOut) (embedQ : String → List ℚ)
    (cs : ℚ) (st : List (String × SearchResponse)) (q key : String)
    (r : SearchResponse)
    (hhit : MaestroEngine.checkCache embedQ cs st q = some (key, r)) :
    MaestroEngine.search pipe embedQ true cs st q =
      ({ r with from_cache := true },
       dictUpdate st key (fun _ => { r with from_cache := true })) := by
  rw [search_cache_eq, hhit]

/-- **C2** (amended).  On a cache miss, `search` builds the response with
`from_cache = false` and stores exactly that response under the query.  On
a cache hit, however, the response the engine returns — the very object
the cache holds — has `from_cache` set to `true`, so after the first hit
the stored entry itself carries `from_cache = true`: the flag is `false`
in storage only until the entry's first cache hit, not at every point of
every call sequence. -/
theorem cache_flag_behavior (pipe : String → PipeOut) (embedQ : String → List ℚ)
    (cs : ℚ) (st : List (String × SearchResponse)) (q : String) :
    (MaestroEngine.checkCache embedQ cs st q = none →
      dictFind (MaestroEngine.search pipe embedQ true cs st q).2 q
          = some (MaestroEngine.search pipe embedQ true cs st q).1 ∧
      (MaestroEngine.search pipe embedQ true cs st q).1.from_cache = false) ∧
    (∀ key r, MaestroEngine.checkCache embedQ cs st q = some (key, r) →
      (MaestroEngine.search pipe embedQ true cs st q).1.from_cache = true ∧
      dictFind (MaestroEngine.search pipe embedQ true cs st q).2 key
          = some (MaestroEngine.search pipe embedQ true cs st q).1) := by
  constructor
  · intro hmiss
    rw [search_miss pipe embedQ cs st q hmiss]
    exact ⟨dictFind_dictUpdate_self st q (fun _ =>
      { query := q, results := (pipe q).results,
        skills_used := (pipe q).skills_used, time_ms := (pipe q).time_ms,
        from_cache := false, expanded_terms := (pipe q).expanded_terms }), rfl⟩
  · intro key r hhit
    rw [search_hit pipe embedQ cs st q key r hhit]
    exact ⟨rfl, dictFind_dictUpdate_self st key
      (fun _ => { r with from_cache := true })⟩

/-- Counterexample to `C2` as claimed: searching `"a"` twice from an empty
cache (caching enabled, default similarity 0.92) leaves the stored entry
under `"a"` with `from_cache = true` after the second call — the first
call stored it with `from_cache = false`. -/
theorem cache_claim_counterexample :
    (∃ r1, dictFind cacheSt1 "a" = some r1 ∧ r1.from_cache = false) ∧
    (∃ r2, dictFind cacheSt2 "a" = some r2 ∧ r2.from_cache = true) := by
  have h1 : cacheSt1
      = [("a", { query := "a", results := [], skills_used := [], time_ms := 0,
                 from_cache := false, expanded_terms := none })] := rfl
  have h2 : cacheSt2
      = [("a", { query := "a", results := [], skills_used := [], time_ms := 0,
                 from_cache := true, expanded_terms := none })] := rfl
  refine
    ⟨⟨{ query := "a", results := [], skills_used := [], time_ms := 0,
        from_cache := false, expanded_terms := none }, ?_, rfl⟩,
     ⟨{ query := "a", results := [], skills_used := [], time_ms := 0,
        from_cache := true, expanded_terms := none }, ?_, rfl⟩⟩
  · rw [h1]; rfl
  · rw [h2]; rfl

/-! ## C3 — indexing bookkeeping -/

/-- Upserting chunk ids that are pairwise distinct and fresh for the
store appends them all. -/
theorem foldl_upsertId_fresh :
    ∀ (cs : List Chunk) (acc : List String),
      (∀ c ∈ cs, c.id ∉ acc) → (cs.map (fun c => c.id)).Nodup →
      cs.foldl (fun sto c => MaestroEngine.upsertId sto c.id) acc
        = acc ++ cs.map (fun c => c.id) := by
  intro cs
  induction cs with
  | nil => intro acc _ _; simp
  | cons c cs ih =>
    intro acc hfresh hnodup
    rw [List.map_cons, List.nodup_cons] at hnodup
    rw [List.foldl_cons]
    have hup : MaestroEngine.upsertId acc c.id = acc ++ [c.id] := by
      unfold MaestroEngine.upsertId
      rw [if_neg]
      intro hcont
      exact hfresh c (List.mem_cons_self c cs) (by simpa using hcont)
    have hfresh' : ∀ c' ∈ cs, c'.id ∉ acc ++ [c.id] := by
      intro c' hc' hmem
      rcases List.mem_append.mp hmem with hA | hB
      · exact hfresh c' (List.mem_cons_of_mem c hc') hA
      · rw [List.mem_singleton] at hB
        exact hnodup.1 (hB ▸ List.mem_map_of_mem (fun c => c.id) hc')
    rw [hup, ih (acc ++ [c.id]) hfresh' hnodup.2, List.append_assoc]
    rfl

/-- The fingerprint fold over fresh skill names appends one registry entry
per skill that produced chunks, in corpus order. -/
theorem foldl_fpStep_fresh :
    ∀ (corpus : List SkillInput) (acc : List (String × SkillFingerprint)),
      (∀ s ∈ corpus, s.name ∉ acc.map Prod.fst) →
      (corpus.map (fun s => s.name)).Nodup →
      corpus.foldl MaestroEngine.fpStep acc
        = acc ++ (corpus.filter (fun s => !s.chunks.isEmpty)).map
            (fun s => (s.name, MaestroEngine.mkFp s)) := by
  intro corpus
  induction corpus with
  | nil => intro acc _ _; simp
  | cons s corpus ih =>
    intro acc hfresh hnodup
    rw [List.map_cons, List.nodup_cons] at hnodup
    rw [List.foldl_cons]
    by_cases hs : s.chunks.isEmpty = true
    · have hstep : MaestroEngine.fpStep acc s = acc := by
        unfold MaestroEngine.fpStep
        rw [if_pos hs]
      have hfilt : (s :: corpus).filter (fun s => !s.chunks.isEmpty)
          = corpus.filter (fun s => !s.chunks.isEmpty) :=
        List.filter_cons_of_neg (by simp [hs])
      rw [hstep, hfilt]
      exact ih acc (fun s' hs' => hfresh s' (List.mem_cons_of_mem s hs')) hnodup.2
    · have hbool : s.chunks.isEmpty = false := by
        cases h : s.chunks.isEmpty
        · rfl
        · exact absurd h hs
      have hany : acc.any (fun p => p.1 == s.name) = false := by
        rw [List.any_eq_false]
        intro p hp
        simp only [beq_iff_eq]
        intro he
        exact hfresh s (List.mem_cons_self s corpus)
          (he ▸ List.mem_map_of_mem Prod.fst hp)
      have hstep : MaestroEngine.fpStep acc s
          = acc ++ [(s.name, MaestroEngine.mkFp s)] := by
        unfold MaestroEngine.fpStep
        rw [hbool, if_neg Bool.false_ne_true]
        unfold dictUpdate
        rw [hany, if_neg Bool.false_ne_true]
      have hfresh' : ∀ s' ∈ corpus,
          s'.name ∉ (acc ++ [(s.name, MaestroEngine.mkFp s)]).map Prod.fst := by
        intro s' hsc hmem
        rw [List.map_append] at hmem
        rcases List.mem_append.mp hmem with hA | hB
        · exact hfresh s' (List.mem_cons_of_mem s hsc) hA
        · simp only [List.map_cons, List.map_nil, List.mem_singleton] at hB
          exact hnodup.1 (hB ▸ List.mem_map_of_mem (fun s => s.name) hsc)
      have hfilt : (s :: corpus).filter (fun s => !s.chunks.isEmpty)
          = s :: corpus.filter (fun s => !s.chunks.isEmpty) :=
        List.filter_cons_of_pos (by simp [hbool])
      rw [hstep, ih _ hfresh' hnodup.2, hfilt, List.map_cons, List.append_assoc]
      rfl

/-- Skills with no chunks contribute nothing to the total chunk count. -/
theorem sum_len_filter_nonempty :
    ∀ corpus : List SkillInput,
      ((corpus.filter (fun s => !s.chunks.isEmpty)).map
          (fun s => s.chunks.length)).sum
        = (corpus.map (fun s => s.chunks.length)).sum := by
  intro corpus
  induction corpus with
  | nil => rfl
  | cons s corpus ih =>
    by_cases hs : s.chunks.isEmpty = true
    · rw [List.filter_cons_of_neg (by simp [hs]), List.map_cons, List.sum_cons, ih]
      have hlen : s.chunks.length = 0 := by
        rw [List.isEmpty_iff] at hs
        rw [hs]
        rfl
      rw [hlen]
      omega
    · rw [List.filter_cons_of_pos (by simp [hs]), List.map_cons, List.map_cons,
        List.sum_cons, List.sum_cons, ih]

/-- **C3** (amended).  On a first `index` over a corpus with pairwise
distinct skill names and pairwise distinct chunk ids, starting from the
empty engine state, the claim holds: the registry holds exactly one
fingerprint per skill that produced chunks, each `chunk_count` equals that
skill's number of indexed chunks, and the counts sum to the vector
store's size.  The claim's universal form over arbitrary call sequences
fails (see the counterexample): `index` never removes a fingerprint or a
store entry, so a second non-`force` pass over changed content leaves
stale store entries and the sum no longer matches `count()`. -/
theorem index_fresh_counts (corpus : List SkillInput) (force : Bool)
    (hids : ((corpus.flatMap (fun s => s.chunks)).map (fun c => c.id)).Nodup)
    (hnames : (corpus.map (fun s => s.name)).Nodup) :
    (∀ p ∈ (MaestroEngine.index ⟨[], []⟩ corpus force).fingerprints,
        ∃ s ∈ corpus, p = (s.name, MaestroEngine.mkFp s)
          ∧ p.2.chunk_count = s.chunks.length ∧ s.chunks ≠ []) ∧
    ((MaestroEngine.index ⟨[], []⟩ corpus force).fingerprints.map
        (fun p => p.2.chunk_count)).sum
      = (MaestroEngine.index ⟨[], []⟩ corpus force).store.length := by
  have hfold := foldl_fpStep_fresh corpus []
    (by intro s _ h; exact absurd h (List.not_mem_nil s.name)) hnames
  rw [List.nil_append] at hfold
  have hfps : (MaestroEngine.index ⟨[], []⟩ corpus force).fingerprints
      = (corpus.filter (fun s => !s.chunks.isEmpty)).map
          (fun s => (s.name, MaestroEngine.mkFp s)) := by
    simp only [MaestroEngine.index]
    by_cases hall : (corpus.flatMap (fun s => s.chunks)).isEmpty = true
    · rw [if_pos hall]
      exact hfold
    · rw [if_neg hall]
      exact hfold
  have hstore : ¬ (corpus.flatMap (fun s => s.chunks)).isEmpty = true →
      (MaestroEngine.index ⟨[], []⟩ corpus force).store
        = (corpus.flatMap (fun s => s.chunks)).map (fun c => c.id) := by
    intro hall
    simp only [MaestroEngine.index]
    rw [if_neg hall]
    show (corpus.flatMap (fun s => s.chunks)).foldl
        (fun sto c => MaestroEngine.upsertId sto c.id) (if force then [] else [])
      = _
    rw [ite_self]
    rw [foldl_upsertId_fresh _ []
      (by intro c _ h; exact absurd h (List.not_mem_nil c.id)) hids,
      List.nil_append]
  constructor
  · intro p hp
    rw [hfps, List.mem_map] at hp
    obtain ⟨s, hsf, hps⟩ := hp
    rw [List.mem_filter] at hsf
    obtain ⟨hsc, hsb⟩ := hsf
    refine ⟨s, hsc, hps.symm, ?_, ?_⟩
    · rw [← hps]
      rfl
    · intro he
      rw [he] at hsb
      simp at hsb
  · by_cases hall : (corpus.flatMap (fun s => s.chunks)).isEmpty = true
    · have hchunks : ∀ s ∈ corpus, s.chunks = [] := by
        rw [List.isEmpty_iff, List.flatMap_eq_nil_iff] at hall
        exact hall
      have hfilt : corpus.filter (fun s => !s.chunks.isEmpty) = [] := by
        rw [List.filter_eq_nil_iff]
        intro s hsmem
        rw [hchunks s hsmem]
        simp
      have hsA : (MaestroEngine.index ⟨[], []⟩ corpus force).store = [] := by
        simp only [MaestroEngine.index]
        rw [if_pos hall]
      rw [hfps, hfilt, hsA]
      rfl
    · rw [hfps, hstore hall, List.length_map, List.length_flatMap]
      have h1 : (((corpus.filter (fun s => !s.chunks.isEmpty)).map
            (fun s => (s.name, MaestroEngine.mkFp s))).map
              (fun p => p.2.chunk_count)).sum
          = ((corpus.filter (fun s => !s.chunks.isEmpty)).map
              (fun s => s.chunks.length)).sum := by
        rw [List.map_map]
        rfl
      rw [h1, sum_len_filter_nonempty corpus]
      rfl

/-- Witness for `C3`'s theorem: the fresh one-skill corpus `corpusA1`. -/
theorem index_fresh_counts_witness :
    (∀ p ∈ (MaestroEngine.index ⟨[], []⟩ corpusA1 false).fingerprints,
        ∃ s ∈ corpusA1, p = (s.name, MaestroEngine.mkFp s)
          ∧ p.2.chunk_count = s.chunks.length ∧ s.chunks ≠ []) ∧
    ((MaestroEngine.index ⟨[], []⟩ corpusA1 false).fingerprints.map
        (fun p => p.2.chunk_count)).sum
      = (MaestroEngine.index ⟨[], []⟩ corpusA1 false).store.length :=
  index_fresh_counts corpusA1 false (by decide) (by decide)

/-- Counterexample to `C3` as claimed: index skill `A` (one chunk `c1`),
then re-index it with `force = false` after its content changed (one
chunk `c2`).  The fingerprint records `chunk_count = 1` but the store
still holds the stale `c1` next to `c2`, so the sum of `chunk_count` (1)
differs from the store's count (2). -/
theorem index_claim_counterexample :
    ((MaestroEngine.index (MaestroEngine.index ⟨[], []⟩ corpusA1 false)
        corpusA2 false).fingerprints.map (fun p => p.2.chunk_count)).sum
      ≠ (MaestroEngine.index (MaestroEngine.index ⟨[], []⟩ corpusA1 false)
          corpusA2 false).store.length := by
  decide

end Maestro
